import Mathlib

/-!
Verification of the `manage_tdx_mark` repository: a shallow embedding of the
annotation-file manager (parser, serializer, code helpers, validators, cache,
data-operation service, safe batch service) together with theorems settling
the specification claims.

Python strings are modelled as `List Char` (`PyStr`); Python `dict`s (which
preserve insertion order and have unique keys) are modelled as association
lists with insert-or-update-in-place semantics; functions that raise are
modelled with `Except`; file-system state is a record holding the annotation
file content and the list of backup contents.
-/

namespace TdxMark

/-- Python strings, represented by their character lists. -/
abbrev PyStr := List Char

/-- Characters of a Lean string literal, for writing concrete inputs. -/
def chars (s : String) : PyStr := s.data

/-- Whitespace as recognised by Python `str.strip()` (ASCII range). -/
def isWs (c : Char) : Bool :=
  c = ' ' || c = '\t' || c = '\n' || c = '\r' || c = '\x0b' || c = '\x0c'

/-- Drop trailing whitespace: the right half of Python `str.strip()`. -/
def stripRight (s : PyStr) : PyStr := (s.reverse.dropWhile isWs).reverse

/-- Python `str.strip()`. -/
def strip (s : PyStr) : PyStr := stripRight (s.dropWhile isWs)

/-- Python `str.isdigit()` (ASCII digits). -/
def isDigits (s : PyStr) : Bool := !s.isEmpty && s.all Char.isDigit

/-- The 8-ASCII-digit well-formedness test applied to stored codes. -/
def wf8 (k : PyStr) : Bool := k.length == 8 && isDigits k

/-- Python `s.split(sep)` for a single-character separator: always returns a
nonempty list of fragments. -/
def splitOnChar (sep : Char) : PyStr → List PyStr
  | [] => [[]]
  | c :: rest =>
    if c = sep then [] :: splitOnChar sep rest
    else
      match splitOnChar sep rest with
      | [] => [[c]]
      | p :: ps => (c :: p) :: ps

/-- Python `sep.join(parts)` for a single-character separator. -/
def joinChar (sep : Char) : List PyStr → PyStr
  | [] => []
  | [p] => p
  | p :: ps => p ++ sep :: joinChar sep ps

/-- Python `s.split(sep, 1)` when `sep` occurs in `s`: the parts before and
after the first occurrence. -/
def splitFirst (sep : Char) : PyStr → PyStr × PyStr
  | [] => ([], [])
  | c :: rest =>
    if c = sep then ([], rest)
    else
      let r := splitFirst sep rest
      (c :: r.1, r.2)

/-- One section's records: stock code → value, a Python `dict`. -/
abbrev AList := List (PyStr × PyStr)

/-- The central section map: section name → (code → value). -/
abbrev SectionMap := List (PyStr × AList)

/-- `d.get(k)` on a Python dict (keys are unique). -/
def lookupKey {β : Type} (k : PyStr) : List (PyStr × β) → Option β
  | [] => none
  | (k₀, v₀) :: rest => if k₀ = k then some v₀ else lookupKey k rest

/-- `d[k] = v` on a Python dict: update in place if present, else append. -/
def setKey {β : Type} (k : PyStr) (v : β) : List (PyStr × β) → List (PyStr × β)
  | [] => [(k, v)]
  | (k₀, v₀) :: rest => if k₀ = k then (k₀, v) :: rest else (k₀, v₀) :: setKey k v rest

/-- `del d[k]` on a Python dict (no-op if the key is absent). -/
def eraseKey {β : Type} (k : PyStr) : List (PyStr × β) → List (PyStr × β)
  | [] => []
  | (k₀, v₀) :: rest => if k₀ = k then rest else (k₀, v₀) :: eraseKey k rest

/-- In-place mutation of the value stored under `k`, when present. -/
def modifyKey {β : Type} (k : PyStr) (f : β → β) : List (PyStr × β) → List (PyStr × β)
  | [] => []
  | (k₀, v₀) :: rest =>
    if k₀ = k then (k₀, f v₀) :: rest else (k₀, v₀) :: modifyKey k f rest

/-- Remove the first occurrence of an element from a plain list
(`list.remove(x)` on a list holding `x` at most once). -/
def removeFirst (k : PyStr) : List PyStr → List PyStr
  | [] => []
  | a :: as => if a = k then as else a :: removeFirst k as

/-- `constants.SUPPORTED_SECTIONS`, in the fixed write order. -/
def SUPPORTED_SECTIONS : List PyStr :=
  [chars "MARK", chars "TIP", chars "TIPWORD", chars "TIPCOLOR", chars "TIME"]

/-! ## `TdxMarkManager.parse_content` -/

/-- One iteration of the line loop of `TdxMarkManager.parse_content`: the
state is the current section (`None` after an unknown header) and the data
built so far. -/
def parseStep (st : Option PyStr × SectionMap) (rawLine : PyStr) :
    Option PyStr × SectionMap :=
  let line := strip rawLine
  if line = [] then st
  else if line.head? = some '[' ∧ line.getLast? = some ']' then
    let name := (line.drop 1).dropLast
    if name ∈ SUPPORTED_SECTIONS then (some name, setKey name [] st.2)
    else (none, st.2)
  else if '=' ∈ line then
    match st.1 with
    | none => st
    | some sec =>
      let kv := splitFirst '=' line
      let k := strip kv.1
      let v := strip kv.2
      if k.length = 8 ∧ isDigits k = true then (some sec, modifyKey sec (setKey k v) st.2)
      else st
  else st

/-- The line loop of `parse_content` over an explicit list of lines. -/
def parse_lines (ls : List PyStr) : SectionMap := (ls.foldl parseStep (none, [])).2

/-- `TdxMarkManager.parse_content`: split on newlines and run the line loop. -/
def parse_content (content : PyStr) : SectionMap :=
  parse_lines (splitOnChar '\n' content)

/-! ## `TdxMarkManager.save_data` serialization logic -/

/-- Python string `<=` (lexicographic on code points). -/
def strLe : PyStr → PyStr → Bool
  | [], _ => true
  | _ :: _, [] => false
  | a :: as, b :: bs => if a < b then true else if b < a then false else strLe as bs

/-- Python tuple comparison `(k₁, v₁) <= (k₂, v₂)` used by
`sorted(data[section].items())`. -/
def pairLe (p q : PyStr × PyStr) : Bool :=
  if p.1 = q.1 then strLe p.2 q.2 else strLe p.1 q.1

/-- `sorted(items)`: the entries of a section in ascending order. -/
def pySorted (es : AList) : AList :=
  List.insertionSort (fun p q => pairLe p q = true) es

/-- The `[SECTION]` header line. -/
def headerLine (s : PyStr) : PyStr := '[' :: (s ++ [']'])

/-- One `code=value` line. -/
def entryLine (p : PyStr × PyStr) : PyStr := p.1 ++ '=' :: p.2

/-- The entries `save_data` writes for one section: sorted ascending, with
blank values skipped. -/
def writtenEntries (es : AList) : AList :=
  (pySorted es).filter (fun p => !(strip p.2).isEmpty)

/-- The lines `save_data` emits for one non-empty section: its header, its
non-blank entries in sorted order, and a blank separator line. -/
def sectionLines (s : PyStr) (es : AList) : List PyStr :=
  headerLine s :: (writtenEntries es).map entryLine ++ [[]]

/-- The full line list `save_data` builds before joining with newlines. -/
def save_data_lines (data : SectionMap) : List PyStr :=
  SUPPORTED_SECTIONS.foldl (fun acc s =>
    match lookupKey s data with
    | some es => if es.isEmpty then acc else acc ++ sectionLines s es
    | none => acc) []

/-- The block of lines one section contributes to the written file. -/
def sectionBlock (data : SectionMap) (s : PyStr) : List PyStr :=
  match lookupKey s data with
  | some es => if es.isEmpty then [] else sectionLines s es
  | none => []

/-- Invariant of every map `parse_content` produces: section names are
supported and unique, codes are 8 ASCII digits and unique per section, and
values are stripped and free of newlines. -/
def WfMap (m : SectionMap) : Prop :=
  (m.map Prod.fst).Nodup ∧
  ∀ q ∈ m, q.1 ∈ SUPPORTED_SECTIONS ∧ (q.2.map Prod.fst).Nodup ∧
    ∀ p ∈ q.2, wf8 p.1 = true ∧ strip p.2 = p.2 ∧ '\n' ∉ p.2

/-- The entries one section retains after a serialize/re-parse cycle:
nothing when the section is written empty, its written entries otherwise. -/
def keptEntries (m : SectionMap) (s : PyStr) : Option AList :=
  match lookupKey s m with
  | some es => if es.isEmpty then none else some (writtenEntries es)
  | none => none

/-- The section map a serialize/re-parse cycle reconstructs, section by
section in write order. -/
def reparsedSections (m : SectionMap) (ss : List PyStr) : SectionMap :=
  ss.filterMap (fun s => (keptEntries m s).map (fun w => (s, w)))

/-- The claim's round-trip equivalence: the two maps hold the same sections,
and per section the same entries compared as sets. -/
def RoundTripEq (m₁ m₂ : SectionMap) : Prop :=
  (∀ s, (lookupKey s m₁).isSome = (lookupKey s m₂).isSome) ∧
  (∀ s p, p ∈ (lookupKey s m₁).getD [] ↔ p ∈ (lookupKey s m₂).getD [])

/-- Removal of the empty-valued entries of every section. -/
def removeEmptyValues (m : SectionMap) : SectionMap :=
  m.map (fun q => (q.1, q.2.filter (fun p => !p.2.isEmpty)))

/-- The file content `save_data` writes: `'\n'.join(content_lines)`. -/
def save_data_content (data : SectionMap) : PyStr :=
  joinChar '\n' (save_data_lines data)

/-! ## Static code helpers (`TdxMarkManager`) -/

/-- `True` exactly when the `Except` models a call that did not raise. -/
def exceptOk {ε α : Type} : Except ε α → Bool
  | .ok _ => true
  | .error _ => false

/-- `TdxMarkManager.convert_to_8digit`: 8-digit numeric codes pass through,
6-digit numeric codes get a market-dependent 2-digit code in front, anything
else raises `ValueError`. -/
def convert_to_8digit (stock_code : PyStr) : Except String PyStr :=
  if stock_code.length = 8 ∧ isDigits stock_code = true then .ok stock_code
  else if ¬(stock_code.length = 6 ∧ isDigits stock_code = true) then
    .error "无效的股票代码格式"
  else
    let first_digit := stock_code.headD ' '
    if first_digit = '6' then .ok ('0' :: '1' :: stock_code)
    else if first_digit = '0' ∨ first_digit = '3' then .ok ('0' :: '0' :: stock_code)
    else if first_digit = '4' ∨ first_digit = '8' then .ok ('0' :: '2' :: stock_code)
    else .error "无法识别的股票代码"

/-! ## `validators.py` -/

/-- The three known market codes (`constants.MarketCode`). -/
def MARKET_CODES : List PyStr := [chars "00", chars "01", chars "02"]

/-- `validators.validate_stock_code`. -/
def validate_stock_code (code : PyStr) (allow_short : Bool) : Except String PyStr :=
  if code = [] then .error "代码不能为空"
  else
    let c := strip code
    if ¬(isDigits c = true) then .error "代码只能包含数字"
    else if c.length = 8 then
      if c.take 2 ∈ MARKET_CODES then .ok c else .error "无效的市场代码"
    else if c.length = 6 ∧ allow_short = true then .ok c
    else .error "代码长度错误"

/-- Python `str.upper()` (characters upper-cased individually). -/
def upper (s : PyStr) : PyStr := s.map Char.toUpper

/-- `validators.validate_section`. -/
def validate_section (sectionName : PyStr) : Except String PyStr :=
  if sectionName = [] then .error "区块不能为空"
  else
    let s := upper (strip sectionName)
    if s ∈ SUPPORTED_SECTIONS then .ok s else .error "无效的区块"

/-! ## `TdxMarkManager.merge_duplicate_tipwords` -/

/-- `code_groups[full_code].append(tipword)` on a `defaultdict(list)`. -/
def addToGroups (k v : PyStr) : List (PyStr × List PyStr) → List (PyStr × List PyStr)
  | [] => [(k, [v])]
  | (k₀, vs) :: rest =>
    if k₀ = k then (k₀, vs ++ [v]) :: rest else (k₀, vs) :: addToGroups k v rest

/-- The inner deduplication of `merge_duplicate_tipwords`: split every
grouped value on `/`, keep each stripped non-blank fragment the first time it
is seen, in order. -/
def uniqueTipwords (tipwords : List PyStr) : List PyStr :=
  (tipwords.foldl (fun st tw =>
    (((splitOnChar '/' tw).map strip).filter (fun p => !p.isEmpty)).foldl
      (fun st₂ part =>
        if part ∈ st₂.1 then st₂ else (st₂.1 ++ [part], st₂.2 ++ [part])) st)
    (([] : List PyStr), ([] : List PyStr))).2

/-- `TdxMarkManager.merge_duplicate_tipwords` on a supplied data map,
returning the merged-record count and the (aliased, hence re-stored)
`TIPWORD` section. Groups single-valued dict entries by key, then rewrites
only groups holding more than one value. -/
def merge_duplicate_tipwords (data : SectionMap) : Nat × SectionMap :=
  match lookupKey (chars "TIPWORD") data with
  | none => (0, data)
  | some tipword_data =>
    let code_groups := tipword_data.foldl (fun gs p => addToGroups p.1 p.2 gs) []
    let res := code_groups.foldl (fun (st : AList × Nat) g =>
      if 1 < g.2.length then
        (setKey g.1 (joinChar '/' (uniqueTipwords g.2)) st.1, st.2 + 1)
      else st) (tipword_data, 0)
    (res.2, setKey (chars "TIPWORD") res.1 data)

/-! ## `TdxMarkManager.delete_from_section` -/

/-- The `try` body of `delete_from_section` with a supplied data map: convert
the code, raise on an unsupported section name, then delete from that one
section only. No state is mutated before either raise point. -/
def delete_from_section_try (stock_code sectionName : PyStr) (data : SectionMap) :
    Except String (Bool × SectionMap) :=
  match convert_to_8digit stock_code with
  | .error e => .error e
  | .ok full =>
    if sectionName ∉ SUPPORTED_SECTIONS then .error "不支持的区块类型"
    else
      match lookupKey sectionName data with
      | some es =>
        if (lookupKey full es).isSome then .ok (true, modifyKey sectionName (eraseKey full) data)
        else .ok (false, data)
      | none => .ok (false, data)

/-- `TdxMarkManager.delete_from_section`: the whole method, whose
`except Exception` handler converts any raise from the body into `False`. -/
def delete_from_section (stock_code sectionName : PyStr) (data : SectionMap) :
    Bool × SectionMap :=
  match delete_from_section_try stock_code sectionName data with
  | .ok r => r
  | .error _ => (false, data)

/-! ## `DataOperationService` (`data_service.py`) -/

/-- `constants.DataSection.TIPWORD.value`. -/
def TIPWORD : PyStr := chars "TIPWORD"

/-- The `if self.section not in data: data[self.section] = {}` prelude shared
by both strategies. -/
def ensureSection (s : PyStr) (d : SectionMap) : SectionMap :=
  if (lookupKey s d).isSome then d else d ++ [(s, [])]

/-- `DirectUpdateStrategy.execute`. -/
def direct_update (sec full value : PyStr) (d : SectionMap) : SectionMap :=
  modifyKey sec (setKey full value) (ensureSection sec d)

/-- `TipwordMergeStrategy.execute`: append `"/" + value` to a non-empty
current value, else set the value directly. -/
def tipword_merge (full value : PyStr) (d : SectionMap) : SectionMap :=
  let d₁ := ensureSection TIPWORD d
  let cur := (lookupKey full ((lookupKey TIPWORD d₁).getD [])).getD []
  let newValue := if cur ≠ [] then cur ++ '/' :: value else value
  modifyKey TIPWORD (setKey full newValue) d₁

/-- `DataOperationService.update_section_value`: convert the code, validate
the section, dispatch to the strategy; any raise is converted into a failed
result. -/
def update_section_value (stock_code sectionName value : PyStr) (d : SectionMap) :
    Bool × SectionMap :=
  match convert_to_8digit stock_code with
  | .error _ => (false, d)
  | .ok full =>
    match validate_section sectionName with
    | .error _ => (false, d)
    | .ok sec =>
      if sec = TIPWORD then (true, tipword_merge full value d)
      else (true, direct_update sec full value d)

/-- `models.BatchOperationResult` (the fields the claims use). -/
structure BatchOperationResult where
  total_items : Nat
  successful_items : Nat
  failed_items : Nat
  individual_results : List (PyStr × Bool)
  errors : List PyStr
deriving DecidableEq

/-- `BatchOperationResult.success_rate`: percentage of successful items. -/
def BatchOperationResult.success_rate (r : BatchOperationResult) : ℚ :=
  if r.total_items = 0 then 0 else (r.successful_items : ℚ) / (r.total_items : ℚ) * 100

/-- One iteration of the `batch_update` loop: run `update_section_value` on
the pair and tally the outcome (error strings are modelled by the failing
code). -/
def batchStep (sectionName : PyStr) (st : BatchOperationResult × SectionMap)
    (kv : PyStr × PyStr) : BatchOperationResult × SectionMap :=
  let u := update_section_value kv.1 sectionName kv.2 st.2
  ({ total_items := st.1.total_items,
     successful_items := st.1.successful_items + (if u.1 then 1 else 0),
     failed_items := st.1.failed_items + (if u.1 then 0 else 1),
     individual_results := st.1.individual_results ++ [(kv.1, u.1)],
     errors := st.1.errors ++ (if u.1 then [] else [kv.1]) }, u.2)

/-- `DataOperationService.batch_update`: apply `update_section_value` to each
pair in order, tallying per-code outcomes. -/
def batch_update (updates : List (PyStr × PyStr)) (sectionName : PyStr) (d : SectionMap) :
    BatchOperationResult × SectionMap :=
  updates.foldl (batchStep sectionName)
    ({ total_items := updates.length, successful_items := 0, failed_items := 0,
       individual_results := [], errors := [] }, d)

/-! ## `TdxMarkManager.validate_data_integrity` (the `invalid_codes` field) -/

/-- The `invalid_codes` list of `validate_data_integrity`: every structurally
invalid code found in any supported section, first occurrence only. -/
def invalid_codes (data : SectionMap) : List PyStr :=
  SUPPORTED_SECTIONS.foldl (fun acc s =>
    match lookupKey s data with
    | none => acc
    | some es => es.foldl (fun acc₂ p =>
        if wf8 p.1 then acc₂
        else if p.1 ∈ acc₂ then acc₂ else acc₂ ++ [p.1]) acc) []

/-- Every stored code in every section is 8 ASCII digits. -/
def KeysWf8 (d : SectionMap) : Prop := ∀ q ∈ d, ∀ p ∈ q.2, wf8 p.1 = true

/-! ## File-system state and file-facing manager operations -/

/-- The durable state the manager touches: the annotation file content
(`none` when the file is absent) and the contents of the backup files
created so far. -/
structure FS where
  file : Option PyStr
  backups : List PyStr
deriving DecidableEq

/-- `TdxMarkManager.create_backup`: raises when the source file is absent,
else records a byte-for-byte copy. -/
def create_backup (fs : FS) : Except String FS :=
  match fs.file with
  | none => .error "原文件不存在"
  | some content => .ok { fs with backups := fs.backups ++ [content] }

/-- `TdxMarkManager.read_file`: raises when the file is absent; optionally
backs up first (that backup cannot fail here, the file exists). -/
def read_file (createBk : Bool) (fs : FS) : Except String (PyStr × FS) :=
  match fs.file with
  | none => .error "mark.dat文件不存在"
  | some content =>
    if createBk then .ok (content, { fs with backups := fs.backups ++ [content] })
    else .ok (content, fs)

/-- `TdxMarkManager.load_data` = `read_file` then `parse_content`. -/
def load_data (createBk : Bool) (fs : FS) : Except String (SectionMap × FS) :=
  match read_file createBk fs with
  | .error e => .error e
  | .ok (c, fs₁) => .ok (parse_content c, fs₁)

/-- `TdxMarkManager.save_data` writing back to the manager's own file: back
up first (failure swallowed), then overwrite the file with the serialized
content and return `True`. -/
def save_data (data : SectionMap) (fs : FS) : Bool × FS :=
  let fs₁ := match create_backup fs with | .ok f => f | .error _ => fs
  (true, { fs₁ with file := some (save_data_content data) })

/-! ## Per-field manager updates with no data map supplied (`data=None`) -/

/-- `TdxMarkManager._update_section_value` called with `data=None`: convert
the code, load the file into a fresh local map, assign
`data[section][full_code] = new_value` on that local map only (it is never
saved), and return `True`; any raise is converted into `False`. -/
def update_section_value_noData (stock_code _sectionName _new_value : PyStr) (fs : FS) :
    Bool × FS :=
  match convert_to_8digit stock_code with
  | .error _ => (false, fs)
  | .ok _full =>
    match load_data true fs with
    | .error _ => (false, fs)
    | .ok (_data, fs₁) => (true, fs₁)

/-- `TdxMarkManager.update_mark` with `data=None`. -/
def update_mark_noData (stock_code new_value : PyStr) (fs : FS) : Bool × FS :=
  update_section_value_noData stock_code (chars "MARK") new_value fs

/-- `TdxMarkManager.update_tip` with `data=None`. -/
def update_tip_noData (stock_code new_value : PyStr) (fs : FS) : Bool × FS :=
  update_section_value_noData stock_code (chars "TIP") new_value fs

/-- `TdxMarkManager.update_tipcolor` with `data=None`. -/
def update_tipcolor_noData (stock_code new_value : PyStr) (fs : FS) : Bool × FS :=
  update_section_value_noData stock_code (chars "TIPCOLOR") new_value fs

/-- `TdxMarkManager.update_time` with `data=None`. -/
def update_time_noData (stock_code new_value : PyStr) (fs : FS) : Bool × FS :=
  update_section_value_noData stock_code (chars "TIME") new_value fs

/-- `TdxMarkManager.update_tipword` with `data=None`: same shape, the merge
happens on the freshly loaded local map, which is never saved. -/
def update_tipword_noData (stock_code _new_tipword : PyStr) (fs : FS) : Bool × FS :=
  match convert_to_8digit stock_code with
  | .error _ => (false, fs)
  | .ok _full =>
    match load_data true fs with
    | .error _ => (false, fs)
    | .ok (_data, fs₁) => (true, fs₁)

/-! ## `TdxMarkManager.safe_update` -/

/-- A Python value as far as `isinstance(result, bool) and result` can
distinguish it. -/
inductive PyRes where
  | pyBool (b : Bool)
  | pyOther
deriving DecidableEq

/-- The dictionary `safe_update` returns (`had_error` models the presence of
an `error` key, `rolled_back` the presence of a truthy `rolled_back` key). -/
structure SafeUpdateReport where
  success : Bool
  result : Option PyRes
  rolled_back : Bool
  had_error : Bool
deriving DecidableEq

/-- `TdxMarkManager.safe_update`: back up, load, run the supplied operation;
only a result that is the boolean `True` triggers the reload/re-validate/
rollback step; everything else falls through to the success report. -/
def safe_update (update_func : FS → PyRes × FS) (fs : FS) : SafeUpdateReport × FS :=
  match create_backup fs with
  | .error _ => (⟨false, none, false, true⟩, fs)
  | .ok fs₁ =>
    match load_data false fs₁ with
    | .error _ => (⟨false, none, false, true⟩, fs₁)
    | .ok (_original, fs₂) =>
      let r := update_func fs₂
      match r.1 with
      | .pyBool true =>
        match load_data false r.2 with
        | .error _ => (⟨false, none, false, true⟩, r.2)
        | .ok (updated, fs₄) =>
          if invalid_codes updated ≠ [] then
            (⟨false, none, true, false⟩, { fs₄ with file := fs.file })
          else (⟨true, some r.1, false, false⟩, fs₄)
      | res => (⟨true, some res, false, false⟩, r.2)

/-! ## `SafeBatchService._process_chunk` (`safe_batch_service.py`) -/

/-- `SafeBatchConfig`. -/
structure SafeBatchConfig where
  chunk_size : Nat
  success_threshold : ℚ
  auto_rollback : Bool
  continue_on_chunk_failure : Bool
  create_summary_report : Bool
  validate_before_save : Bool
deriving DecidableEq

/-- `ChunkResult` (`backup_path` is modelled by the backed-up content). -/
structure ChunkResult where
  chunk_index : Nat
  success : Bool
  success_rate : ℚ
  successful_items : List PyStr
  failed_items : List PyStr
  errors : List PyStr
  backup_path : Option PyStr
  rolled_back : Bool
deriving DecidableEq

/-- `SafeBatchService._process_chunk`: back up, load fresh, batch-update,
then either validate-and-save (rate at or above the threshold) or roll the
backup over the live file (below the threshold, `auto_rollback` on). A
failed integrity validation raises and is caught by the same
rollback-if-enabled handler. -/
def process_chunk (chunk : List (PyStr × PyStr)) (sectionName : PyStr)
    (chunk_index : Nat) (config : SafeBatchConfig) (fs : FS) : ChunkResult × FS :=
  match fs.file with
  | none =>
    (⟨chunk_index, false, 0, [], [], [chars "创建备份失败"], none, false⟩, fs)
  | some content =>
    let fs₁ : FS := ⟨some content, fs.backups ++ [content]⟩
    let data := parse_content content
    let bu := batch_update chunk sectionName data
    let succ := (bu.1.individual_results.filter (fun p => p.2)).map (fun p => p.1)
    let fail := (bu.1.individual_results.filter (fun p => !p.2)).map (fun p => p.1)
    if config.success_threshold ≤ bu.1.success_rate then
      if config.validate_before_save = true ∧ invalid_codes bu.2 ≠ [] then
        if config.auto_rollback then
          (⟨chunk_index, false, bu.1.success_rate, succ, fail,
            bu.1.errors ++ [chars "数据完整性验证失败"], some content, true⟩,
           ⟨some content, fs₁.backups⟩)
        else
          (⟨chunk_index, false, bu.1.success_rate, succ, fail,
            bu.1.errors ++ [chars "数据完整性验证失败"], some content, false⟩, fs₁)
      else
        (⟨chunk_index, true, bu.1.success_rate, succ, fail, bu.1.errors,
          some content, false⟩, (save_data bu.2 fs₁).2)
    else
      if config.auto_rollback then
        (⟨chunk_index, false, bu.1.success_rate, succ, fail, bu.1.errors,
          some content, true⟩, ⟨some content, fs₁.backups⟩)
      else
        (⟨chunk_index, false, bu.1.success_rate, succ, fail, bu.1.errors,
          some content, false⟩, fs₁)

/-! ## `LRUCache` (`cache.py`) -/

/-- `models.CacheEntry` with an abstract integer clock. -/
structure CacheEntry where
  data : PyStr
  timestamp : Nat
  ttl : Nat
  access_count : Nat
deriving DecidableEq

/-- `CacheEntry.is_expired`: age strictly greater than the time-to-live. -/
def CacheEntry.is_expired (now : Nat) (e : CacheEntry) : Bool :=
  e.ttl < now - e.timestamp

/-- `cache.LRUCache`: the entry dict plus the recency list (least recently
used first). -/
structure LRUCache where
  max_size : Nat
  cache : List (PyStr × CacheEntry)
  access_order : List PyStr
deriving DecidableEq

/-- A fresh cache of the given capacity. -/
def LRUCache.empty (max_size : Nat) : LRUCache := ⟨max_size, [], []⟩

/-- `LRUCache._remove`. -/
def LRUCache.remove (c : LRUCache) (k : PyStr) : LRUCache :=
  { c with cache := eraseKey k c.cache, access_order := removeFirst k c.access_order }

/-- `LRUCache._update_access_order`: move the key to the most-recent end. -/
def LRUCache.update_access_order (c : LRUCache) (k : PyStr) : LRUCache :=
  { c with access_order := removeFirst k c.access_order ++ [k] }

/-- `LRUCache._evict_lru`: drop the least recently used key. -/
def LRUCache.evict_lru (c : LRUCache) : LRUCache :=
  match c.access_order with
  | [] => c
  | k :: _ => c.remove k

/-- `LRUCache.get` at time `now`: miss on absence, evict-and-miss on expiry,
else refresh recency, bump the entry's access counter and return its data. -/
def LRUCache.get (c : LRUCache) (now : Nat) (k : PyStr) : Option PyStr × LRUCache :=
  match lookupKey k c.cache with
  | none => (none, c)
  | some e =>
    if e.is_expired now then (none, c.remove k)
    else
      let c₁ := c.update_access_order k
      (some e.data,
       { c₁ with cache := setKey k { e with access_count := e.access_count + 1 } c₁.cache })

/-- `LRUCache.put` at time `now`: drop any existing entry for the key, evict
the least recently used entry if at capacity, then insert. -/
def LRUCache.put (c : LRUCache) (now : Nat) (k v : PyStr) (ttl : Nat) : LRUCache :=
  let c₁ := if (lookupKey k c.cache).isSome then c.remove k else c
  let c₂ := if c₁.max_size ≤ c₁.cache.length then c₁.evict_lru else c₁
  { c₂ with cache := c₂.cache ++ [(k, ⟨v, now, ttl, 0⟩)],
            access_order := c₂.access_order ++ [k] }

/-- The value currently stored under a key, ignoring expiry. -/
def LRUCache.find (c : LRUCache) (k : PyStr) : Option PyStr :=
  (lookupKey k c.cache).map (fun e => e.data)

/-! ## Basic lemmas about the Python-dict operations -/

theorem lookupKey_setKey_self {β : Type} (k : PyStr) (v : β) (d : List (PyStr × β)) :
    lookupKey k (setKey k v d) = some v := by
  induction d with
  | nil => simp [setKey, lookupKey]
  | cons q rest ih =>
    by_cases h : q.1 = k
    · simp [setKey, lookupKey, h]
    · simp [setKey, lookupKey, h, ih]

theorem lookupKey_setKey_ne {β : Type} {k k₁ : PyStr} (v : β) (d : List (PyStr × β))
    (h : k ≠ k₁) : lookupKey k₁ (setKey k v d) = lookupKey k₁ d := by
  induction d with
  | nil => simp [setKey, lookupKey, h]
  | cons q rest ih =>
    by_cases hq : q.1 = k
    · have hq₁ : q.1 ≠ k₁ := by rw [hq]; exact h
      simp [setKey, lookupKey, hq, hq₁, h]
    · by_cases hq₁ : q.1 = k₁ <;> simp [setKey, lookupKey, hq, hq₁, ih, h, Ne.symm h]

theorem lookupKey_modifyKey_self {β : Type} (k : PyStr) (f : β → β) (d : List (PyStr × β)) :
    lookupKey k (modifyKey k f d) = (lookupKey k d).map f := by
  induction d with
  | nil => simp [modifyKey, lookupKey]
  | cons q rest ih =>
    by_cases h : q.1 = k
    · simp [modifyKey, lookupKey, h]
    · simp [modifyKey, lookupKey, h, ih]

theorem lookupKey_modifyKey_ne {β : Type} {k k₁ : PyStr} (f : β → β) (d : List (PyStr × β))
    (h : k ≠ k₁) : lookupKey k₁ (modifyKey k f d) = lookupKey k₁ d := by
  induction d with
  | nil => simp [modifyKey, lookupKey]
  | cons q rest ih =>
    by_cases hq : q.1 = k
    · simp only [modifyKey, lookupKey, if_pos hq]
      rw [if_neg, if_neg] <;> simp_all
    · simp only [modifyKey, lookupKey, if_neg hq]
      by_cases hq₁ : q.1 = k₁ <;> simp [hq₁, ih]

theorem lookupKey_eq_none_of_not_mem {β : Type} {k : PyStr} {d : List (PyStr × β)}
    (h : k ∉ d.map Prod.fst) : lookupKey k d = none := by
  induction d with
  | nil => rfl
  | cons q rest ih =>
    simp only [List.map_cons, List.mem_cons, not_or] at h
    have hq : q.1 ≠ k := fun he => h.1 he.symm
    simp [lookupKey, hq, ih h.2]

theorem lookupKey_eraseKey_self {β : Type} (k : PyStr) (d : List (PyStr × β))
    (hnd : (d.map Prod.fst).Nodup) : lookupKey k (eraseKey k d) = none := by
  induction d with
  | nil => simp [eraseKey, lookupKey]
  | cons q rest ih =>
    simp only [List.map_cons, List.nodup_cons] at hnd
    by_cases h : q.1 = k
    · rw [eraseKey, if_pos h]
      exact lookupKey_eq_none_of_not_mem (by rw [← h]; exact hnd.1)
    · simp only [eraseKey, if_neg h, lookupKey, if_neg h]
      exact ih hnd.2

theorem lookupKey_eraseKey_ne {β : Type} {k k₁ : PyStr} (d : List (PyStr × β))
    (h : k ≠ k₁) : lookupKey k₁ (eraseKey k d) = lookupKey k₁ d := by
  induction d with
  | nil => simp [eraseKey, lookupKey]
  | cons q rest ih =>
    by_cases hq : q.1 = k
    · have hq₁ : q.1 ≠ k₁ := by rw [hq]; exact h
      simp [eraseKey, lookupKey, hq, hq₁, h]
    · by_cases hq₁ : q.1 = k₁ <;> simp [eraseKey, lookupKey, hq, hq₁, ih, h, Ne.symm h]

theorem setKey_of_lookup_none {β : Type} {k : PyStr} (v : β) {d : List (PyStr × β)}
    (h : lookupKey k d = none) : setKey k v d = d ++ [(k, v)] := by
  induction d with
  | nil => simp [setKey]
  | cons q rest ih =>
    simp only [lookupKey] at h
    by_cases hq : q.1 = k
    · rw [if_pos hq] at h; cases h
    · rw [if_neg hq] at h
      simp [setKey, hq, ih h]

theorem modifyKey_setKey {β : Type} (k : PyStr) (f : β → β) (v : β) (d : List (PyStr × β)) :
    modifyKey k f (setKey k v d) = setKey k (f v) d := by
  induction d with
  | nil => simp [setKey, modifyKey]
  | cons q rest ih =>
    by_cases h : q.1 = k
    · simp [setKey, modifyKey, h]
    · simp [setKey, modifyKey, h, ih]

theorem mem_setKey {β : Type} {p : PyStr × β} {k : PyStr} {v : β} {d : List (PyStr × β)}
    (h : p ∈ setKey k v d) : p = (k, v) ∨ p ∈ d := by
  induction d with
  | nil => simp [setKey] at h; simp [h]
  | cons q rest ih =>
    by_cases hq : q.1 = k
    · simp only [setKey, if_pos hq] at h
      rcases List.mem_cons.mp h with h | h
      · left; rw [h, hq]
      · right; exact List.mem_cons_of_mem _ h
    · simp only [setKey, if_neg hq] at h
      rcases List.mem_cons.mp h with h | h
      · right; simp [h]
      · rcases ih h with h | h
        · left; exact h
        · right; exact List.mem_cons_of_mem _ h

theorem mem_modifyKey {β : Type} {p : PyStr × β} {k : PyStr} {f : β → β}
    {d : List (PyStr × β)} (h : p ∈ modifyKey k f d) :
    p ∈ d ∨ ∃ v, (p.1, v) ∈ d ∧ p.2 = f v := by
  induction d with
  | nil => simp [modifyKey] at h
  | cons q rest ih =>
    by_cases hq : q.1 = k
    · simp only [modifyKey, if_pos hq] at h
      rcases List.mem_cons.mp h with h | h
      · right
        exact ⟨q.2, by simp [h], by simp [h]⟩
      · left; exact List.mem_cons_of_mem _ h
    · simp only [modifyKey, if_neg hq] at h
      rcases List.mem_cons.mp h with h | h
      · left; simp [h]
      · rcases ih h with h | ⟨v, hv, he⟩
        · left; exact List.mem_cons_of_mem _ h
        · right; exact ⟨v, List.mem_cons_of_mem _ hv, he⟩

/-! ## Character and `strip` lemmas -/

theorem not_isWs_of_isDigit {c : Char} (h : c.isDigit = true) : isWs c = false := by
  have h₁ : c ≠ ' ' := fun he => absurd h (by rw [he]; decide)
  have h₂ : c ≠ '\t' := fun he => absurd h (by rw [he]; decide)
  have h₃ : c ≠ '\n' := fun he => absurd h (by rw [he]; decide)
  have h₄ : c ≠ '\r' := fun he => absurd h (by rw [he]; decide)
  have h₅ : c ≠ '\x0b' := fun he => absurd h (by rw [he]; decide)
  have h₆ : c ≠ '\x0c' := fun he => absurd h (by rw [he]; decide)
  unfold isWs
  simp [h₁, h₂, h₃, h₄, h₅, h₆]

theorem dropWhile_eq_self_of_head {p : Char → Bool} {s : PyStr}
    (h : ∀ c, s.head? = some c → p c = false) : s.dropWhile p = s := by
  cases s with
  | nil => rfl
  | cons a t =>
    rw [List.dropWhile_cons, h a rfl]
    simp

theorem exists_append_stripRight (s : PyStr) : ∃ r, stripRight s ++ r = s := by
  refine ⟨(s.reverse.takeWhile isWs).reverse, ?_⟩
  unfold stripRight
  rw [← List.reverse_append, List.takeWhile_append_dropWhile, List.reverse_reverse]

theorem head?_dropWhile {p : Char → Bool} {s : PyStr} {c : Char}
    (h : (s.dropWhile p).head? = some c) : p c = false := by
  induction s with
  | nil => simp [List.dropWhile] at h
  | cons a t ih =>
    rw [List.dropWhile_cons] at h
    by_cases hp : p a = true
    · rw [if_pos hp] at h
      exact ih h
    · rw [if_neg hp] at h
      simp only [List.head?_cons, Option.some.injEq] at h
      rw [← h]
      exact Bool.eq_false_iff.mpr hp

theorem mem_of_mem_stripRight {a : Char} {s : PyStr} (h : a ∈ stripRight s) : a ∈ s := by
  obtain ⟨r, hr⟩ := exists_append_stripRight s
  rw [← hr]
  exact List.mem_append_left _ h

theorem mem_of_mem_strip {a : Char} {s : PyStr} (h : a ∈ strip s) : a ∈ s := by
  unfold strip at h
  exact (List.dropWhile_sublist isWs).subset (mem_of_mem_stripRight h)

theorem strip_eq_self {s : PyStr} (hh : ∀ c, s.head? = some c → isWs c = false)
    (hl : ∀ c, s.getLast? = some c → isWs c = false) : strip s = s := by
  unfold strip stripRight
  rw [dropWhile_eq_self_of_head hh]
  rw [dropWhile_eq_self_of_head (fun c hc => hl c (by rwa [List.head?_reverse] at hc))]
  exact List.reverse_reverse s

theorem strip_of_digits {s : PyStr} (h : isDigits s = true) : strip s = s := by
  unfold isDigits at h
  simp only [Bool.and_eq_true, List.all_eq_true] at h
  refine strip_eq_self (fun c hc => ?_) (fun c hc => ?_)
  · exact not_isWs_of_isDigit (h.2 c (List.mem_of_mem_head? hc))
  · refine not_isWs_of_isDigit (h.2 c ?_)
    have := List.mem_of_mem_head? (l := s.reverse) (by rwa [List.head?_reverse])
    rwa [List.mem_reverse] at this

theorem dropWhile_eq_self_of_fix {p : Char → Bool} {t u r : PyStr}
    (hfix : t.dropWhile p = t) (hpre : u ++ r = t) : u.dropWhile p = u := by
  cases u with
  | nil => rfl
  | cons a u₁ =>
    cases t with
    | nil => simp at hpre
    | cons b t₁ =>
      have hab : a = b := by
        have := congrArg List.head? hpre
        simpa using this
      have hpb : p b = false := by
        by_cases hpb : p b = true
        · rw [List.dropWhile_cons, if_pos hpb] at hfix
          have hlen := (List.dropWhile_sublist (l := t₁) p).length_le
          rw [hfix] at hlen
          simp at hlen
        · exact Bool.eq_false_iff.mpr hpb
      rw [List.dropWhile_cons, hab, hpb]
      simp

theorem dropWhile_dropWhile (p : Char → Bool) (s : PyStr) :
    (s.dropWhile p).dropWhile p = s.dropWhile p := by
  refine dropWhile_eq_self_of_head (fun c hc => head?_dropWhile hc)

theorem stripRight_idem (s : PyStr) : stripRight (stripRight s) = stripRight s := by
  unfold stripRight
  rw [List.reverse_reverse, dropWhile_dropWhile]

theorem strip_idem (s : PyStr) : strip (strip s) = strip s := by
  unfold strip
  obtain ⟨r, hr⟩ := exists_append_stripRight (s.dropWhile isWs)
  rw [dropWhile_eq_self_of_fix (dropWhile_dropWhile isWs s) hr]
  exact stripRight_idem _

theorem strip_nil : strip [] = [] := rfl

theorem eraseKey_of_lookup_none {β : Type} {k : PyStr} {d : List (PyStr × β)}
    (h : lookupKey k d = none) : eraseKey k d = d := by
  induction d with
  | nil => rfl
  | cons q rest ih =>
    simp only [lookupKey] at h
    by_cases hq : q.1 = k
    · rw [if_pos hq] at h; cases h
    · rw [if_neg hq] at h
      simp [eraseKey, hq, ih h]

/-- The shape of every successful `convert_to_8digit` result: 8 ASCII
digits. -/
theorem convert_ok_wf8 {c y : PyStr} (h : convert_to_8digit c = .ok y) :
    y.length = 8 ∧ isDigits y = true := by
  unfold convert_to_8digit at h
  by_cases h1 : c.length = 8 ∧ isDigits c = true
  · rw [if_pos h1] at h
    injection h with hy
    rw [← hy]
    exact h1
  · rw [if_neg h1] at h
    by_cases h2 : ¬(c.length = 6 ∧ isDigits c = true)
    · rw [if_pos h2] at h
      exact Except.noConfusion h
    · rw [if_neg h2] at h
      have h6 := not_not.mp h2
      have hall : c.all Char.isDigit = true := by
        have hx := h6.2
        rw [isDigits] at hx
        simp only [Bool.and_eq_true] at hx
        exact hx.2
      simp only at h
      by_cases hc6 : c.headD ' ' = '6'
      · rw [if_pos hc6] at h
        injection h with hy
        rw [← hy]
        refine ⟨by simp [h6.1], ?_⟩
        rw [isDigits]
        simp [hall]
      · rw [if_neg hc6] at h
        by_cases hc0 : c.headD ' ' = '0' ∨ c.headD ' ' = '3'
        · rw [if_pos hc0] at h
          injection h with hy
          rw [← hy]
          refine ⟨by simp [h6.1], ?_⟩
          rw [isDigits]
          simp [hall]
        · rw [if_neg hc0] at h
          by_cases hc4 : c.headD ' ' = '4' ∨ c.headD ' ' = '8'
          · rw [if_pos hc4] at h
            injection h with hy
            rw [← hy]
            refine ⟨by simp [h6.1], ?_⟩
            rw [isDigits]
            simp [hall]
          · rw [if_neg hc4] at h
            exact Except.noConfusion h

/-! ## Claim theorems -/

/-- C3: the spec claims `merge_duplicate_tipwords` rewrites the `TIPWORD`
value `"AI/半导体/AI"` to `"AI/半导体"`. The code groups the unique-keyed
dict by key, so every group holds exactly one value, the `len > 1` branch is
dead, and the pass leaves the value unchanged and reports `0` merges. -/
theorem merge_duplicate_tipwords_is_noop :
    merge_duplicate_tipwords [(chars "TIPWORD", [(chars "01600613", chars "AI/半导体/AI")])] =
      (0, [(chars "TIPWORD", [(chars "01600613", chars "AI/半导体/AI")])]) := by
  rfl

/-- C4 counterexample: `convert_to_8digit` is not total on 6-digit numeric
codes; it raises on the 6-digit numeric code `"123456"` (leading digit 1). -/
theorem convert_to_8digit_not_total :
    convert_to_8digit (chars "123456") = Except.error "无法识别的股票代码" := by
  rfl

/-- C4 (amended): `convert_to_8digit` succeeds on every 6-digit numeric code
whose leading digit is one of 0, 3, 4, 6, 8 (the markets it recognises), and
it is idempotent: re-converting any successful result returns it unchanged. -/
theorem convert_to_8digit_total_idem :
    (∀ (ch : Char) (rest : PyStr), (ch :: rest : PyStr).length = 6 →
      isDigits (ch :: rest) = true → ch ∈ ['0', '3', '4', '6', '8'] →
      exceptOk (convert_to_8digit (ch :: rest)) = true) ∧
    (∀ c : PyStr, (convert_to_8digit c).bind convert_to_8digit = convert_to_8digit c) := by
  constructor
  · intro ch rest h6 hd hch
    have h8 : ¬((ch :: rest : PyStr).length = 8 ∧ isDigits (ch :: rest) = true) := by
      intro hx
      rw [h6] at hx
      exact absurd hx.1 (by decide)
    rw [convert_to_8digit, if_neg h8, if_neg (not_not_intro ⟨h6, hd⟩)]
    simp only [List.mem_cons, List.mem_singleton] at hch
    rcases hch with rfl | rfl | rfl | rfl | (rfl | h)
    · rfl
    · rfl
    · rfl
    · rfl
    · rfl
    · cases h
  · intro c
    cases h : convert_to_8digit c with
    | error e => simp [Except.bind, h]
    | ok y =>
      obtain ⟨hy1, hy2⟩ := convert_ok_wf8 h
      simp only [Except.bind]
      rw [convert_to_8digit, if_pos ⟨hy1, hy2⟩]

/-- C4 witness: the amended theorem at the concrete 6-digit code `600613`. -/
theorem convert_to_8digit_total_idem_witness :
    exceptOk (convert_to_8digit (['6', '0', '0', '6', '1', '3'] : PyStr)) = true ∧
    (convert_to_8digit (['6', '0', '0', '6', '1', '3'] : PyStr)).bind convert_to_8digit =
      convert_to_8digit (['6', '0', '0', '6', '1', '3'] : PyStr) :=
  ⟨convert_to_8digit_total_idem.1 '6' ['0', '0', '6', '1', '3'] (by decide) (by decide)
      (by decide),
   convert_to_8digit_total_idem.2 ['6', '0', '0', '6', '1', '3']⟩

/-- C6 counterexample: the spec claims `delete_from_section` raises a format
error on an unsupported section name; in fact the format error raised inside
the `try` body is caught by the method's own `except` handler, which returns
`False` with the data untouched — the caller sees no exception. -/
theorem delete_from_section_swallows_error :
    delete_from_section_try (chars "600613") (chars "FOO")
        [(chars "MARK", [(chars "01600613", chars "8")])] =
      Except.error "不支持的区块类型" ∧
    delete_from_section (chars "600613") (chars "FOO")
        [(chars "MARK", [(chars "01600613", chars "8")])] =
      (false, [(chars "MARK", [(chars "01600613", chars "8")])]) := by
  exact ⟨rfl, rfl⟩

/-- C6 (amended): for a convertible code, `delete_from_section` with a
supported section removes the code's entry from that one named section only
(every other section is untouched), returning whether the entry existed; with
an unsupported section name it returns `False` and leaves the data unchanged
(the internal format error is swallowed, not raised). -/
theorem delete_from_section_eq {stock_code sec full : PyStr} (data : SectionMap)
    (hconv : convert_to_8digit stock_code = .ok full) (hsec : sec ∈ SUPPORTED_SECTIONS) :
    delete_from_section stock_code sec data =
      if ((lookupKey sec data).bind (lookupKey full)).isSome then
        (true, modifyKey sec (eraseKey full) data)
      else (false, data) := by
  unfold delete_from_section delete_from_section_try
  rw [hconv]
  simp only
  rw [if_neg (not_not_intro hsec)]
  cases hes : lookupKey sec data with
  | none => simp
  | some es =>
    cases hfl : lookupKey full es with
    | none => simp [hfl]
    | some v => simp [hfl]

theorem delete_from_section_spec (stock_code sec full : PyStr) (data : SectionMap)
    (hconv : convert_to_8digit stock_code = .ok full) :
    (sec ∈ SUPPORTED_SECTIONS →
      (delete_from_section stock_code sec data).1 =
        ((lookupKey sec data).bind (lookupKey full)).isSome ∧
      lookupKey sec (delete_from_section stock_code sec data).2 =
        (lookupKey sec data).map (eraseKey full) ∧
      (∀ t, t ≠ sec →
        lookupKey t (delete_from_section stock_code sec data).2 = lookupKey t data)) ∧
    (sec ∉ SUPPORTED_SECTIONS →
      delete_from_section stock_code sec data = (false, data)) := by
  constructor
  · intro hsec
    rw [delete_from_section_eq data hconv hsec]
    by_cases hin : ((lookupKey sec data).bind (lookupKey full)).isSome
    · rw [if_pos hin]
      refine ⟨by simp [hin], ?_, ?_⟩
      · rw [lookupKey_modifyKey_self]
      · intro t ht
        exact lookupKey_modifyKey_ne _ _ (fun he => ht he.symm)
    · rw [if_neg hin]
      refine ⟨?_, ?_, fun t _ => rfl⟩
      · cases hx : ((lookupKey sec data).bind (lookupKey full)) with
        | none => rfl
        | some v => rw [hx] at hin; simp at hin
      · cases hes : lookupKey sec data with
        | none => rfl
        | some es =>
          have hfl : lookupKey full es = none := by
            rw [hes] at hin
            simpa using hin
          simp [eraseKey_of_lookup_none hfl]
  · intro hsec
    unfold delete_from_section delete_from_section_try
    rw [hconv]
    simp [hsec]

/-- C7: `validate_stock_code` raises on `"60061"` (5 digits, even with
`allow_short`), on `"abcdef"` (non-numeric), on `"99600613"` (unknown market
code `99`), and on empty input; every 8-digit numeric code with an unknown
2-digit market code is rejected; a 6-digit numeric code is accepted exactly
when `allow_short` is true. -/
theorem validate_stock_code_spec :
    exceptOk (validate_stock_code (chars "60061") true) = false ∧
    exceptOk (validate_stock_code (chars "abcdef") true) = false ∧
    exceptOk (validate_stock_code (chars "99600613") false) = false ∧
    exceptOk (validate_stock_code [] true) = false ∧
    exceptOk (validate_stock_code [] false) = false ∧
    (∀ (c : PyStr) (allow_short : Bool), c.length = 8 → isDigits c = true →
      c.take 2 ∉ MARKET_CODES →
      exceptOk (validate_stock_code c allow_short) = false) ∧
    (∀ c : PyStr, c.length = 6 → isDigits c = true →
      validate_stock_code c true = .ok c ∧
      exceptOk (validate_stock_code c false) = false) := by
  refine ⟨rfl, rfl, rfl, rfl, rfl, ?_, ?_⟩
  · intro c allow_short h8 hd hmk
    have hne : c ≠ [] := by
      intro he
      rw [he] at h8
      exact absurd h8 (by decide)
    unfold validate_stock_code
    rw [if_neg hne]
    simp only
    rw [strip_of_digits hd, if_neg (not_not_intro hd), if_pos h8, if_neg hmk]
    rfl
  · intro c h6 hd
    have hne : c ≠ [] := by
      intro he
      rw [he] at h6
      exact absurd h6 (by decide)
    have h8 : c.length ≠ 8 := by rw [h6]; decide
    constructor
    · unfold validate_stock_code
      rw [if_neg hne]
      simp only
      rw [strip_of_digits hd, if_neg (not_not_intro hd), if_neg h8,
        if_pos ⟨h6, by trivial⟩]
    · unfold validate_stock_code
      rw [if_neg hne]
      simp only
      rw [strip_of_digits hd, if_neg (not_not_intro hd), if_neg h8,
        if_neg (fun hx => Bool.noConfusion hx.2)]
      rfl

/-- C7 witness: the two quantified parts at the concrete codes `600613`
(accepted with `allow_short`, rejected without) and `99600613`. -/
theorem validate_stock_code_spec_witness :
    validate_stock_code (['6', '0', '0', '6', '1', '3'] : PyStr) true =
      .ok ['6', '0', '0', '6', '1', '3'] ∧
    exceptOk (validate_stock_code (['6', '0', '0', '6', '1', '3'] : PyStr) false) = false ∧
    exceptOk (validate_stock_code (['9', '9', '6', '0', '0', '6', '1', '3'] : PyStr) true)
      = false :=
  ⟨(validate_stock_code_spec.2.2.2.2.2.2 ['6', '0', '0', '6', '1', '3'] (by decide)
      (by decide)).1,
   (validate_stock_code_spec.2.2.2.2.2.2 ['6', '0', '0', '6', '1', '3'] (by decide)
      (by decide)).2,
   validate_stock_code_spec.2.2.2.2.2.1 ['9', '9', '6', '0', '0', '6', '1', '3'] true
     (by decide) (by decide) (by decide)⟩

/-- C8: in an `LRUCache` of capacity 2, putting three distinct keys in order
evicts the first; reading the first key between the second and third put
refreshes its recency, so the third put evicts the second key instead. All
operations happen at one instant, so no entry is expired. -/
theorem lru_eviction_spec (t ttl : Nat) (ka kb kc va vb vc : PyStr)
    (hab : ka ≠ kb) (hac : ka ≠ kc) (hbc : kb ≠ kc) :
    ((((LRUCache.empty 2).put t ka va ttl).put t kb vb ttl).put t kc vc ttl).find ka
        = none ∧
    ((((LRUCache.empty 2).put t ka va ttl).put t kb vb ttl).put t kc vc ttl).find kb
        = some vb ∧
    ((((LRUCache.empty 2).put t ka va ttl).put t kb vb ttl).put t kc vc ttl).find kc
        = some vc ∧
    (((((LRUCache.empty 2).put t ka va ttl).put t kb vb ttl).get t ka).2.put t kc vc ttl).find ka
        = some va ∧
    (((((LRUCache.empty 2).put t ka va ttl).put t kb vb ttl).get t ka).2.put t kc vc ttl).find kb
        = none ∧
    (((((LRUCache.empty 2).put t ka va ttl).put t kb vb ttl).get t ka).2.put t kc vc ttl).find kc
        = some vc := by
  have e1 : (LRUCache.empty 2).put t ka va ttl = ⟨2, [(ka, ⟨va, t, ttl, 0⟩)], [ka]⟩ := by
    unfold LRUCache.put LRUCache.empty
    simp [lookupKey]
  have e2 : (⟨2, [(ka, ⟨va, t, ttl, 0⟩)], [ka]⟩ : LRUCache).put t kb vb ttl =
      ⟨2, [(ka, ⟨va, t, ttl, 0⟩), (kb, ⟨vb, t, ttl, 0⟩)], [ka, kb]⟩ := by
    unfold LRUCache.put
    simp [lookupKey, hab]
  have e3 : (⟨2, [(ka, ⟨va, t, ttl, 0⟩), (kb, ⟨vb, t, ttl, 0⟩)], [ka, kb]⟩ : LRUCache).put
      t kc vc ttl =
      ⟨2, [(kb, ⟨vb, t, ttl, 0⟩), (kc, ⟨vc, t, ttl, 0⟩)], [kb, kc]⟩ := by
    unfold LRUCache.put LRUCache.evict_lru LRUCache.remove
    simp [lookupKey, eraseKey, removeFirst, hac, hbc]
  have e4 : (⟨2, [(ka, ⟨va, t, ttl, 0⟩), (kb, ⟨vb, t, ttl, 0⟩)], [ka, kb]⟩ : LRUCache).get
      t ka =
      (some va, ⟨2, [(ka, ⟨va, t, ttl, 1⟩), (kb, ⟨vb, t, ttl, 0⟩)], [kb, ka]⟩) := by
    unfold LRUCache.get LRUCache.update_access_order
    simp [lookupKey, setKey, removeFirst, CacheEntry.is_expired, Nat.sub_self, hab]
  have e5 : (⟨2, [(ka, ⟨va, t, ttl, 1⟩), (kb, ⟨vb, t, ttl, 0⟩)], [kb, ka]⟩ : LRUCache).put
      t kc vc ttl =
      ⟨2, [(ka, ⟨va, t, ttl, 1⟩), (kc, ⟨vc, t, ttl, 0⟩)], [ka, kc]⟩ := by
    unfold LRUCache.put LRUCache.evict_lru LRUCache.remove
    simp [lookupKey, eraseKey, removeFirst, hab, hac, hbc, Ne.symm hab]
  rw [e1, e2, e3, e4, e5]
  unfold LRUCache.find
  simp [lookupKey, hab, hac, hbc, Ne.symm hab, Ne.symm hac, Ne.symm hbc]

/-- C8 witness: the eviction theorem at the concrete keys `A`, `B`, `C`. -/
theorem lru_eviction_spec_witness :
    ((((LRUCache.empty 2).put 0 ['A'] ['x'] 300).put 0 ['B'] ['y'] 300).put 0 ['C'] ['z']
        300).find ['A'] = none ∧
    (((((LRUCache.empty 2).put 0 ['A'] ['x'] 300).put 0 ['B'] ['y'] 300).get 0
        ['A']).2.put 0 ['C'] ['z'] 300).find ['B'] = none :=
  ⟨(lru_eviction_spec 0 300 ['A'] ['B'] ['C'] ['x'] ['y'] ['z'] (by decide) (by decide)
      (by decide)).1,
   (lru_eviction_spec 0 300 ['A'] ['B'] ['C'] ['x'] ['y'] ['z'] (by decide) (by decide)
      (by decide)).2.2.2.2.1⟩

/-- C9: when the operation handed to `safe_update` returns any value other
than the boolean `True` (for example `False`), the reload/re-validate/
rollback step is skipped entirely: the report still has `success = True`,
embeds that result, records no rollback and no error, and the file system is
left exactly as the operation left it. -/
theorem safe_update_nonTrue_spec (f : FS → PyRes × FS) (bks : List PyStr)
    (content : PyStr) (r : PyRes) (fs₃ : FS)
    (hop : f ⟨some content, bks ++ [content]⟩ = (r, fs₃))
    (hr : r ≠ PyRes.pyBool true) :
    safe_update f ⟨some content, bks⟩ = (⟨true, some r, false, false⟩, fs₃) := by
  cases r with
  | pyBool b =>
    cases b with
    | true => exact absurd rfl hr
    | false => simp [safe_update, create_backup, load_data, read_file, hop]
  | pyOther => simp [safe_update, create_backup, load_data, read_file, hop]

/-- C9 witness: a concrete operation returning the boolean `False` on a
concrete file state. -/
theorem safe_update_nonTrue_spec_witness :
    safe_update (fun s => (PyRes.pyBool false, s)) ⟨some ['x'], []⟩ =
      (⟨true, some (PyRes.pyBool false), false, false⟩, ⟨some ['x'], [['x']]⟩) :=
  safe_update_nonTrue_spec (fun s => (PyRes.pyBool false, s)) [] ['x']
    (PyRes.pyBool false) ⟨some ['x'], [['x']]⟩ rfl (by decide)

/-- C10: each per-field update method called with a valid code and no data
map returns `True` yet leaves the annotation file unchanged: the file is read
(creating one backup), parsed into a transient map that is mutated locally,
and never written back. -/
theorem update_noData_frame (stock_code value full content : PyStr) (bks : List PyStr)
    (hconv : convert_to_8digit stock_code = .ok full) :
    (∀ sectionName, update_section_value_noData stock_code sectionName value
        ⟨some content, bks⟩ = (true, ⟨some content, bks ++ [content]⟩)) ∧
    update_mark_noData stock_code value ⟨some content, bks⟩ =
      (true, ⟨some content, bks ++ [content]⟩) ∧
    update_tip_noData stock_code value ⟨some content, bks⟩ =
      (true, ⟨some content, bks ++ [content]⟩) ∧
    update_tipcolor_noData stock_code value ⟨some content, bks⟩ =
      (true, ⟨some content, bks ++ [content]⟩) ∧
    update_time_noData stock_code value ⟨some content, bks⟩ =
      (true, ⟨some content, bks ++ [content]⟩) ∧
    update_tipword_noData stock_code value ⟨some content, bks⟩ =
      (true, ⟨some content, bks ++ [content]⟩) := by
  have hg : ∀ sectionName, update_section_value_noData stock_code sectionName value
      ⟨some content, bks⟩ = (true, ⟨some content, bks ++ [content]⟩) := by
    intro sectionName
    unfold update_section_value_noData
    rw [hconv]
    simp [load_data, read_file]
  refine ⟨hg, hg _, hg _, hg _, hg _, ?_⟩
  unfold update_tipword_noData
  rw [hconv]
  simp [load_data, read_file]

/-- C10 witness: the frame theorem at a concrete code, value and file
content — the file text is untouched, only a backup copy is added. -/
theorem update_noData_frame_witness :
    update_mark_noData (['6', '0', '0', '6', '1', '3'] : PyStr) ['9']
        ⟨some ['[', 'M'], []⟩ = (true, ⟨some ['[', 'M'], [['[', 'M']]⟩) ∧
    update_tipword_noData (['6', '0', '0', '6', '1', '3'] : PyStr) ['A']
        ⟨some ['[', 'M'], []⟩ = (true, ⟨some ['[', 'M'], [['[', 'M']]⟩) :=
  ⟨(update_noData_frame ['6', '0', '0', '6', '1', '3'] ['9']
      ['0', '1', '6', '0', '0', '6', '1', '3'] ['[', 'M'] [] (by rfl)).2.1,
   (update_noData_frame ['6', '0', '0', '6', '1', '3'] ['A']
      ['0', '1', '6', '0', '0', '6', '1', '3'] ['[', 'M'] [] (by rfl)).2.2.2.2.2⟩

/-! ## Order lemmas for the serializer -/

theorem strLe_refl (a : PyStr) : strLe a a = true := by
  induction a with
  | nil => rfl
  | cons x xs ih => simp [strLe, lt_irrefl, ih]

theorem strLe_total (a b : PyStr) : strLe a b = true ∨ strLe b a = true := by
  induction a generalizing b with
  | nil => left; rfl
  | cons x xs ih =>
    cases b with
    | nil => right; rfl
    | cons y ys =>
      rcases lt_trichotomy x y with h | h | h
      · left; simp [strLe, h]
      · subst h
        rcases ih ys with h₁ | h₁
        · left; simp [strLe, lt_irrefl, h₁]
        · right; simp [strLe, lt_irrefl, h₁]
      · right; simp [strLe, h]

theorem strLe_trans {a b c : PyStr} (hab : strLe a b = true) (hbc : strLe b c = true) :
    strLe a c = true := by
  induction a generalizing b c with
  | nil => rfl
  | cons x xs ih =>
    cases b with
    | nil => simp [strLe] at hab
    | cons y ys =>
      cases c with
      | nil => simp [strLe] at hbc
      | cons z zs =>
        rcases lt_trichotomy x y with h₁ | h₁ | h₁
        · rcases lt_trichotomy y z with h₂ | h₂ | h₂
          · simp [strLe, lt_trans h₁ h₂]
          · subst h₂; simp [strLe, h₁]
          · rw [strLe, if_neg (lt_asymm h₂), if_pos h₂] at hbc
            cases hbc
        · subst h₁
          rw [strLe, if_neg (lt_irrefl x), if_neg (lt_irrefl x)] at hab
          rcases lt_trichotomy x z with h₂ | h₂ | h₂
          · simp [strLe, h₂]
          · subst h₂
            rw [strLe, if_neg (lt_irrefl x), if_neg (lt_irrefl x)] at hbc ⊢
            exact ih hab hbc
          · rw [strLe, if_neg (lt_asymm h₂), if_pos h₂] at hbc
            cases hbc
        · rw [strLe, if_neg (lt_asymm h₁), if_pos h₁] at hab
          cases hab

theorem strLe_antisymm {a b : PyStr} (hab : strLe a b = true) (hba : strLe b a = true) :
    a = b := by
  induction a generalizing b with
  | nil =>
    cases b with
    | nil => rfl
    | cons y ys => simp [strLe] at hba
  | cons x xs ih =>
    cases b with
    | nil => simp [strLe] at hab
    | cons y ys =>
      rcases lt_trichotomy x y with h | h | h
      · rw [strLe, if_neg (lt_asymm h), if_pos h] at hba
        cases hba
      · subst h
        rw [strLe, if_neg (lt_irrefl x), if_neg (lt_irrefl x)] at hab hba
        rw [ih hab hba]
      · rw [strLe, if_neg (lt_asymm h), if_pos h] at hab
        cases hab

theorem pairLe_key {p q : PyStr × PyStr} (h : pairLe p q = true) : strLe p.1 q.1 = true := by
  unfold pairLe at h
  by_cases he : p.1 = q.1
  · rw [he]; exact strLe_refl _
  · rwa [if_neg he] at h

theorem pairLe_total (p q : PyStr × PyStr) : pairLe p q = true ∨ pairLe q p = true := by
  unfold pairLe
  by_cases h : p.1 = q.1
  · rw [if_pos h, if_pos h.symm]
    exact strLe_total _ _
  · rw [if_neg h, if_neg (fun hx => h hx.symm)]
    exact strLe_total _ _

theorem pairLe_trans {p q r : PyStr × PyStr} (hpq : pairLe p q = true)
    (hqr : pairLe q r = true) : pairLe p r = true := by
  unfold pairLe at hpq hqr ⊢
  by_cases h₁ : p.1 = q.1
  · rw [if_pos h₁] at hpq
    by_cases h₂ : q.1 = r.1
    · rw [if_pos h₂] at hqr
      rw [if_pos (h₁.trans h₂)]
      exact strLe_trans hpq hqr
    · rw [if_neg h₂] at hqr
      rw [if_neg (fun hx => h₂ (h₁ ▸ hx)), h₁]
      exact hqr
  · rw [if_neg h₁] at hpq
    by_cases h₂ : q.1 = r.1
    · rw [if_neg (fun hx => h₁ (h₂ ▸ hx)), ← h₂]
      exact hpq
    · rw [if_neg h₂] at hqr
      by_cases h₃ : p.1 = r.1
      · exact absurd (strLe_antisymm hpq (h₃ ▸ hqr)) h₁
      · rw [if_neg h₃]
        exact strLe_trans hpq hqr

/-! ## Structure of the serializer output -/

theorem foldl_append_eq_flatten {α β : Type} (g : α → List β) (l : List α) (acc : List β) :
    l.foldl (fun a s => a ++ g s) acc = acc ++ (l.map g).flatten := by
  induction l generalizing acc with
  | nil => simp
  | cons x xs ih => simp [ih]

theorem save_data_lines_eq (data : SectionMap) :
    save_data_lines data = (SUPPORTED_SECTIONS.map (sectionBlock data)).flatten := by
  unfold save_data_lines
  have hfun : (fun (acc : List PyStr) (s : PyStr) =>
      match lookupKey s data with
      | some es => if es.isEmpty then acc else acc ++ sectionLines s es
      | none => acc) = fun acc s => acc ++ sectionBlock data s := by
    funext acc s
    unfold sectionBlock
    cases lookupKey s data with
    | none => simp
    | some es => by_cases he : es.isEmpty <;> simp [he]
  rw [hfun, foldl_append_eq_flatten]
  simp

theorem mem_writtenEntries {es : AList} {p : PyStr × PyStr} :
    p ∈ writtenEntries es ↔ p ∈ es ∧ strip p.2 ≠ [] := by
  unfold writtenEntries
  rw [List.mem_filter]
  have hperm := List.perm_insertionSort (fun p q : PyStr × PyStr => pairLe p q = true) es
  constructor
  · rintro ⟨hm, hf⟩
    refine ⟨hperm.mem_iff.mp hm, ?_⟩
    simpa using hf
  · rintro ⟨hm, hne⟩
    exact ⟨hperm.mem_iff.mpr hm, by simpa using hne⟩

theorem writtenEntries_sorted (es : AList) :
    List.Pairwise (fun p q : PyStr × PyStr => strLe p.1 q.1 = true) (writtenEntries es) := by
  haveI : IsTotal (PyStr × PyStr) (fun p q => pairLe p q = true) := ⟨pairLe_total⟩
  haveI : IsTrans (PyStr × PyStr) (fun p q => pairLe p q = true) :=
    ⟨fun _ _ _ => pairLe_trans⟩
  have hs : List.Sorted (fun p q : PyStr × PyStr => pairLe p q = true) (pySorted es) :=
    List.sorted_insertionSort _ es
  have hp : List.Pairwise (fun p q : PyStr × PyStr => pairLe p q = true)
      (writtenEntries es) := hs.sublist (List.filter_sublist _)
  exact hp.imp (fun h => pairLe_key h)

theorem headerLine_inj {s t : PyStr} (h : headerLine s = headerLine t) : s = t := by
  unfold headerLine at h
  simpa using h

theorem eq_mem_of_headerLine_mem_sectionLines {s t : PyStr} {es : AList}
    (hsup : s ∈ SUPPORTED_SECTIONS) (h : headerLine s ∈ sectionLines t es) : s = t := by
  have hne : '=' ∉ headerLine s := by
    fin_cases hsup <;> decide
  unfold sectionLines at h
  rcases List.mem_cons.mp h with h | h
  · exact headerLine_inj h
  · rcases List.mem_append.mp h with h | h
    · rw [List.mem_map] at h
      obtain ⟨p, _, hp⟩ := h
      exfalso
      apply hne
      rw [← hp]
      unfold entryLine
      exact List.mem_append_right _ (List.mem_cons_self _ _)
    · rw [List.mem_singleton] at h
      exact absurd h (by unfold headerLine; simp)

/-- C5 counterexample: the spec claims a section with zero non-empty entries
is omitted entirely on write; a section holding only the whitespace-valued
entry `01600613 → " "` is nonetheless written as its bare header followed by
the blank separator line. -/
theorem save_data_writes_blank_section :
    save_data_lines [(chars "MARK", [(chars "01600613", chars " ")])] =
      [headerLine (chars "MARK"), []] := by
  rfl

/-- C5 (amended): `save_data` omits a section exactly when it is absent or
its entry dict is empty (a non-empty section whose values are all blank is
still written as a bare header and separator); each written section appears
as its header, its entries sorted ascending by code, and one blank line;
the written entries of a section are exactly its entries with non-blank
values. -/
theorem save_data_spec (data : SectionMap) :
    (∀ s, s ∈ SUPPORTED_SECTIONS →
      (headerLine s ∈ save_data_lines data ↔
        ∃ es, lookupKey s data = some es ∧ es ≠ [])) ∧
    (∀ s es, s ∈ SUPPORTED_SECTIONS → lookupKey s data = some es → es ≠ [] →
      ∃ l₁ l₂, save_data_lines data =
        l₁ ++ (headerLine s :: (writtenEntries es).map entryLine ++ [[]]) ++ l₂) ∧
    (∀ es : AList, List.Pairwise (fun p q : PyStr × PyStr => strLe p.1 q.1 = true)
      (writtenEntries es)) ∧
    (∀ (es : AList) (p : PyStr × PyStr), p ∈ writtenEntries es ↔
      p ∈ es ∧ strip p.2 ≠ []) := by
  refine ⟨?_, ?_, writtenEntries_sorted, fun es p => mem_writtenEntries⟩
  · intro s hsup
    rw [save_data_lines_eq]
    constructor
    · intro hmem
      rw [List.mem_flatten] at hmem
      obtain ⟨blk, hblk, hline⟩ := hmem
      rw [List.mem_map] at hblk
      obtain ⟨t, _, rfl⟩ := hblk
      cases hlk : lookupKey t data with
      | none => simp [sectionBlock, hlk] at hline
      | some es =>
        simp only [sectionBlock, hlk] at hline
        by_cases he : es.isEmpty
        · rw [if_pos he] at hline
          exact absurd hline (List.not_mem_nil _)
        · rw [if_neg he] at hline
          have hst := eq_mem_of_headerLine_mem_sectionLines hsup hline
          subst hst
          exact ⟨es, hlk, by simpa using he⟩
    · rintro ⟨es, hlk, hne⟩
      rw [List.mem_flatten]
      refine ⟨sectionBlock data s, List.mem_map_of_mem _ hsup, ?_⟩
      simp only [sectionBlock, hlk]
      rw [if_neg (by simpa using hne)]
      unfold sectionLines
      exact List.mem_cons_self _ _
  · intro s es hsup hlk hne
    obtain ⟨l₁, l₂, hsplit⟩ := List.append_of_mem hsup
    rw [save_data_lines_eq, hsplit]
    refine ⟨(l₁.map (sectionBlock data)).flatten, (l₂.map (sectionBlock data)).flatten, ?_⟩
    have hblk : sectionBlock data s = sectionLines s es := by
      simp only [sectionBlock, hlk]
      rw [if_neg (by simpa using hne)]
    rw [List.map_append, List.flatten_append, List.map_cons, List.flatten_cons]
    rw [hblk]
    unfold sectionLines
    simp

/-- C5 witness: the amended theorem at a concrete one-section map — the
header is present, and the section's block (header, sorted entries, blank
line) occurs in the output. -/
theorem save_data_spec_witness :
    headerLine (chars "MARK") ∈
      save_data_lines [(chars "MARK", [(chars "01600613", chars "8")])] ∧
    ((chars "01600613", chars "8") ∈
      writtenEntries [(chars "01600613", chars "8")]) :=
  ⟨((save_data_spec [(chars "MARK", [(chars "01600613", chars "8")])]).1
      (chars "MARK") (by decide)).mpr
      ⟨[(chars "01600613", chars "8")], by decide, by decide⟩,
   ((save_data_spec [(chars "MARK", [(chars "01600613", chars "8")])]).2.2.2
      [(chars "01600613", chars "8")] (chars "01600613", chars "8")).mpr
      ⟨by decide, by decide⟩⟩

/-! ## Key well-formedness through parsing and batch updates (for C2) -/

theorem wf8_iff {k : PyStr} : wf8 k = true ↔ (k.length = 8 ∧ isDigits k = true) := by
  simp [wf8, Bool.and_eq_true]

theorem mem_of_lookupKey {β : Type} {k : PyStr} {v : β} {d : List (PyStr × β)}
    (h : lookupKey k d = some v) : (k, v) ∈ d := by
  induction d with
  | nil => cases h
  | cons q rest ih =>
    by_cases hq : q.1 = k
    · rw [lookupKey, if_pos hq] at h
      injection h with hv
      have hqe : q = (k, v) := by rw [← hq, ← hv]
      rw [hqe]
      exact List.mem_cons_self _ _
    · rw [lookupKey, if_neg hq] at h
      exact List.mem_cons_of_mem _ (ih h)

theorem keysWf8_setKey {d : SectionMap} {s : PyStr} {es : AList}
    (hd : KeysWf8 d) (hes : ∀ p ∈ es, wf8 p.1 = true) : KeysWf8 (setKey s es d) := by
  intro q hq p hp
  rcases mem_setKey hq with h | h
  · rw [h] at hp
    exact hes p hp
  · exact hd q h p hp

theorem keysWf8_modify_set {d : SectionMap} {s k v : PyStr}
    (hd : KeysWf8 d) (hk : wf8 k = true) :
    KeysWf8 (modifyKey s (setKey k v) d) := by
  intro q hq p hp
  rcases mem_modifyKey hq with h | ⟨es, hes, hq2⟩
  · exact hd q h p hp
  · rw [hq2] at hp
    rcases mem_setKey hp with h | h
    · rw [h]
      exact hk
    · exact hd (q.1, es) hes p h

theorem keysWf8_ensure {d : SectionMap} (s : PyStr) (hd : KeysWf8 d) :
    KeysWf8 (ensureSection s d) := by
  unfold ensureSection
  by_cases h : (lookupKey s d).isSome
  · rwa [if_pos h]
  · rw [if_neg h]
    intro q hq p hp
    rcases List.mem_append.mp hq with hq | hq
    · exact hd q hq p hp
    · rw [List.mem_singleton] at hq
      rw [hq] at hp
      cases hp

theorem keysWf8_update_section_value (code sec v : PyStr) {d : SectionMap}
    (hd : KeysWf8 d) : KeysWf8 (update_section_value code sec v d).2 := by
  unfold update_section_value
  cases hc : convert_to_8digit code with
  | error e => exact hd
  | ok full =>
    have hfull : wf8 full = true := wf8_iff.mpr (convert_ok_wf8 hc)
    cases validate_section sec with
    | error e => exact hd
    | ok s =>
      show KeysWf8 (if s = TIPWORD then (true, tipword_merge full v d)
        else (true, direct_update s full v d)).2
      by_cases hs : s = TIPWORD
      · rw [if_pos hs]
        unfold tipword_merge
        exact keysWf8_modify_set (keysWf8_ensure _ hd) hfull
      · rw [if_neg hs]
        unfold direct_update
        exact keysWf8_modify_set (keysWf8_ensure _ hd) hfull

theorem keysWf8_batch_foldl (sec : PyStr) (u : List (PyStr × PyStr))
    (st : BatchOperationResult × SectionMap) (hd : KeysWf8 st.2) :
    KeysWf8 (u.foldl (batchStep sec) st).2 := by
  induction u generalizing st with
  | nil => exact hd
  | cons kv rest ih =>
    rw [List.foldl_cons]
    exact ih _ (keysWf8_update_section_value kv.1 sec kv.2 hd)

theorem keysWf8_batch_update (u : List (PyStr × PyStr)) (sec : PyStr) {d : SectionMap}
    (hd : KeysWf8 d) : KeysWf8 (batch_update u sec d).2 :=
  keysWf8_batch_foldl sec u _ hd

theorem keysWf8_parseStep (st : Option PyStr × SectionMap) (l : PyStr)
    (hd : KeysWf8 st.2) : KeysWf8 (parseStep st l).2 := by
  unfold parseStep
  by_cases h0 : strip l = []
  · rwa [if_pos h0]
  · rw [if_neg h0]
    by_cases h1 : (strip l).head? = some '[' ∧ (strip l).getLast? = some ']'
    · rw [if_pos h1]
      by_cases h2 : ((strip l).drop 1).dropLast ∈ SUPPORTED_SECTIONS
      · rw [if_pos h2]
        exact keysWf8_setKey hd (fun p hp => absurd hp (List.not_mem_nil _))
      · rwa [if_neg h2]
    · rw [if_neg h1]
      by_cases h2 : '=' ∈ strip l
      · rw [if_pos h2]
        cases st.1 with
        | none => exact hd
        | some sec =>
          show KeysWf8 (if (strip (splitFirst '=' (strip l)).1).length = 8 ∧
              isDigits (strip (splitFirst '=' (strip l)).1) = true then
              (some sec, modifyKey sec (setKey (strip (splitFirst '=' (strip l)).1)
                (strip (splitFirst '=' (strip l)).2)) st.2)
            else st).2
          by_cases h3 : (strip (splitFirst '=' (strip l)).1).length = 8 ∧
              isDigits (strip (splitFirst '=' (strip l)).1) = true
          · rw [if_pos h3]
            exact keysWf8_modify_set hd (wf8_iff.mpr h3)
          · rwa [if_neg h3]
      · rwa [if_neg h2]

theorem keysWf8_parse_lines (ls : List PyStr) : KeysWf8 (parse_lines ls) := by
  unfold parse_lines
  have hgen : ∀ (st : Option PyStr × SectionMap), KeysWf8 st.2 →
      KeysWf8 (ls.foldl parseStep st).2 := by
    induction ls with
    | nil => exact fun st hd => hd
    | cons l rest ih =>
      intro st hd
      rw [List.foldl_cons]
      exact ih _ (keysWf8_parseStep st l hd)
  exact hgen (none, []) (fun q hq => absurd hq (List.not_mem_nil _))

theorem keysWf8_parse_content (c : PyStr) : KeysWf8 (parse_content c) :=
  keysWf8_parse_lines _

theorem invalid_codes_nil {d : SectionMap} (hd : KeysWf8 d) : invalid_codes d = [] := by
  unfold invalid_codes
  have hinner : ∀ (es : AList), (∀ p ∈ es, wf8 p.1 = true) → ∀ acc : List PyStr,
      es.foldl (fun acc₂ p =>
        if wf8 p.1 = true then acc₂
        else if p.1 ∈ acc₂ then acc₂ else acc₂ ++ [p.1]) acc = acc := by
    intro es hes
    induction es with
    | nil => intro acc; rfl
    | cons p rest ih =>
      intro acc
      rw [List.foldl_cons, if_pos (hes p (List.mem_cons_self _ _))]
      exact ih (fun q hq => hes q (List.mem_cons_of_mem _ hq)) acc
  have houter : ∀ (ss : List PyStr) (acc : List PyStr),
      ss.foldl (fun acc s =>
        match lookupKey s d with
        | none => acc
        | some es => es.foldl (fun acc₂ p =>
            if wf8 p.1 = true then acc₂
            else if p.1 ∈ acc₂ then acc₂ else acc₂ ++ [p.1]) acc) acc = acc := by
    intro ss
    induction ss with
    | nil => intro acc; rfl
    | cons s rest ih =>
      intro acc
      rw [List.foldl_cons]
      cases hlk : lookupKey s d with
      | none => exact ih acc
      | some es =>
        show rest.foldl _ (es.foldl (fun acc₂ p =>
          if wf8 p.1 = true then acc₂
          else if p.1 ∈ acc₂ then acc₂ else acc₂ ++ [p.1]) acc) = acc
        rw [hinner es (fun p hp => hd (s, es) (mem_of_lookupKey hlk) p hp) acc]
        exact ih acc
  exact houter SUPPORTED_SECTIONS []

theorem batchStep_total (sec : PyStr) (st : BatchOperationResult × SectionMap)
    (kv : PyStr × PyStr) : (batchStep sec st kv).1.total_items = st.1.total_items := rfl

theorem batch_foldl_total (sec : PyStr) (u : List (PyStr × PyStr))
    (st : BatchOperationResult × SectionMap) :
    (u.foldl (batchStep sec) st).1.total_items = st.1.total_items := by
  induction u generalizing st with
  | nil => rfl
  | cons kv rest ih =>
    rw [List.foldl_cons, ih]
    rfl

theorem batch_update_total (u : List (PyStr × PyStr)) (sec : PyStr) (d : SectionMap) :
    (batch_update u sec d).1.total_items = u.length := by
  unfold batch_update
  rw [batch_foldl_total]

/-- C2: a `_process_chunk` call with `success_threshold = 100`,
`auto_rollback = true` and a five-item chunk: if exactly four of the five
updates succeed, the chunk is rolled back — the on-disk file equals its
pre-chunk content, which is exactly the chunk's own backup — and
`rolled_back = true`; if all five succeed, the updated map is persisted to
the file and `rolled_back = false`. -/
theorem process_chunk_spec (chunk : List (PyStr × PyStr)) (sectionName content : PyStr)
    (idx : Nat) (config : SafeBatchConfig) (bks : List PyStr)
    (hthr : config.success_threshold = 100)
    (hroll : config.auto_rollback = true)
    (hlen : chunk.length = 5) :
    ((batch_update chunk sectionName (parse_content content)).1.successful_items = 4 →
      (process_chunk chunk sectionName idx config ⟨some content, bks⟩).1.rolled_back
          = true ∧
      (process_chunk chunk sectionName idx config ⟨some content, bks⟩).1.success = false ∧
      (process_chunk chunk sectionName idx config ⟨some content, bks⟩).1.backup_path
          = some content ∧
      (process_chunk chunk sectionName idx config ⟨some content, bks⟩).2.file
          = some content) ∧
    ((batch_update chunk sectionName (parse_content content)).1.successful_items = 5 →
      (process_chunk chunk sectionName idx config ⟨some content, bks⟩).1.rolled_back
          = false ∧
      (process_chunk chunk sectionName idx config ⟨some content, bks⟩).1.success = true ∧
      (process_chunk chunk sectionName idx config ⟨some content, bks⟩).2.file
          = some (save_data_content
              (batch_update chunk sectionName (parse_content content)).2)) := by
  have htot : (batch_update chunk sectionName (parse_content content)).1.total_items = 5 := by
    rw [batch_update_total, hlen]
  constructor
  · intro hsucc
    have hrate : (batch_update chunk sectionName (parse_content content)).1.success_rate
        = 80 := by
      rw [BatchOperationResult.success_rate, htot, hsucc]
      norm_num
    have hcond : ¬(config.success_threshold ≤
        (batch_update chunk sectionName (parse_content content)).1.success_rate) := by
      rw [hthr, hrate]
      norm_num
    simp only [process_chunk]
    rw [if_neg hcond, if_pos hroll]
    exact ⟨rfl, rfl, rfl, rfl⟩
  · intro hsucc
    have hrate : (batch_update chunk sectionName (parse_content content)).1.success_rate
        = 100 := by
      rw [BatchOperationResult.success_rate, htot, hsucc]
      norm_num
    have hcond : config.success_threshold ≤
        (batch_update chunk sectionName (parse_content content)).1.success_rate := by
      rw [hthr, hrate]
    have hinv : invalid_codes (batch_update chunk sectionName (parse_content content)).2
        = [] :=
      invalid_codes_nil (keysWf8_batch_update _ _ (keysWf8_parse_content content))
    simp only [process_chunk]
    rw [if_pos hcond, if_neg (fun hx => hx.2 hinv)]
    exact ⟨rfl, rfl, rfl⟩

/-- C2 witness: the theorem at a concrete file and two concrete five-item
chunks over section `MARK` — one whose fifth code `999999` fails conversion
(rolled back, file preserved), one with five convertible codes (persisted). -/
theorem process_chunk_spec_witness :
    (process_chunk
        [(chars "600613", chars "1"), (chars "000001", chars "2"),
         (chars "300001", chars "3"), (chars "430047", chars "4"),
         (chars "999999", chars "5")]
        (chars "MARK") 1 ⟨5, 100, true, true, true, true⟩
        ⟨some (chars "[MARK]\n01000001=1\n"), []⟩).1.rolled_back = true ∧
    (process_chunk
        [(chars "600613", chars "1"), (chars "000001", chars "2"),
         (chars "300001", chars "3"), (chars "430047", chars "4"),
         (chars "999999", chars "5")]
        (chars "MARK") 1 ⟨5, 100, true, true, true, true⟩
        ⟨some (chars "[MARK]\n01000001=1\n"), []⟩).2.file
      = some (chars "[MARK]\n01000001=1\n") ∧
    (process_chunk
        [(chars "600613", chars "1"), (chars "000001", chars "2"),
         (chars "300001", chars "3"), (chars "430047", chars "4"),
         (chars "800001", chars "5")]
        (chars "MARK") 1 ⟨5, 100, true, true, true, true⟩
        ⟨some (chars "[MARK]\n01000001=1\n"), []⟩).1.rolled_back = false ∧
    (process_chunk
        [(chars "600613", chars "1"), (chars "000001", chars "2"),
         (chars "300001", chars "3"), (chars "430047", chars "4"),
         (chars "800001", chars "5")]
        (chars "MARK") 1 ⟨5, 100, true, true, true, true⟩
        ⟨some (chars "[MARK]\n01000001=1\n"), []⟩).2.file
      = some (save_data_content
          (batch_update
            [(chars "600613", chars "1"), (chars "000001", chars "2"),
             (chars "300001", chars "3"), (chars "430047", chars "4"),
             (chars "800001", chars "5")]
            (chars "MARK") (parse_content (chars "[MARK]\n01000001=1\n"))).2) := by
  have h1 := (process_chunk_spec
    [(chars "600613", chars "1"), (chars "000001", chars "2"),
     (chars "300001", chars "3"), (chars "430047", chars "4"),
     (chars "999999", chars "5")]
    (chars "MARK") (chars "[MARK]\n01000001=1\n") 1 ⟨5, 100, true, true, true, true⟩ []
    rfl rfl (by decide)).1 (by decide)
  have h2 := (process_chunk_spec
    [(chars "600613", chars "1"), (chars "000001", chars "2"),
     (chars "300001", chars "3"), (chars "430047", chars "4"),
     (chars "800001", chars "5")]
    (chars "MARK") (chars "[MARK]\n01000001=1\n") 1 ⟨5, 100, true, true, true, true⟩ []
    rfl rfl (by decide)).2 (by decide)
  exact ⟨h1.1, h1.2.2.2, h2.1, h2.2.2⟩

/-- C6 witness: the amended theorem at concrete inputs (present entry in
`MARK`, other sections untouched; unsupported name `FOO` returns `False`). -/
theorem delete_from_section_spec_witness :
    (delete_from_section (chars "600613") (chars "MARK")
        [(chars "MARK", [(chars "01600613", chars "8")]),
         (chars "TIP", [(chars "01600613", chars "x")])]).1 = true ∧
    delete_from_section (chars "600613") (chars "FOO")
        [(chars "MARK", [(chars "01600613", chars "8")])] =
      (false, [(chars "MARK", [(chars "01600613", chars "8")])]) := by
  constructor
  · have h := (delete_from_section_spec (chars "600613") (chars "MARK") (chars "01600613")
      [(chars "MARK", [(chars "01600613", chars "8")]),
       (chars "TIP", [(chars "01600613", chars "x")])] (by rfl)).1 (by decide)
    rw [h.1]
    decide
  · exact (delete_from_section_spec (chars "600613") (chars "FOO") (chars "01600613")
      [(chars "MARK", [(chars "01600613", chars "8")])] (by rfl)).2 (by decide)

/-! ## Splitting and joining lines (for C1) -/

theorem splitOnChar_ne_nil (sep : Char) (s : PyStr) : splitOnChar sep s ≠ [] := by
  cases s with
  | nil => simp [splitOnChar]
  | cons c rest =>
    rw [splitOnChar]
    by_cases h : c = sep
    · simp [h]
    · rw [if_neg h]
      cases splitOnChar sep rest <;> simp

theorem splitOnChar_of_not_mem {sep : Char} {s : PyStr} (h : sep ∉ s) :
    splitOnChar sep s = [s] := by
  induction s with
  | nil => rfl
  | cons c rest ih =>
    simp only [List.mem_cons, not_or] at h
    rw [splitOnChar, if_neg (fun he => h.1 he.symm), ih h.2]

theorem splitOnChar_append {sep : Char} {a t : PyStr} (h : sep ∉ a) :
    splitOnChar sep (a ++ sep :: t) = a :: splitOnChar sep t := by
  induction a with
  | nil => simp [splitOnChar]
  | cons c rest ih =>
    simp only [List.mem_cons, not_or] at h
    rw [List.cons_append, splitOnChar, if_neg (fun he => h.1 he.symm), ih h.2]

theorem splitOnChar_joinChar {sep : Char} {ls : List PyStr} (hne : ls ≠ [])
    (h : ∀ l ∈ ls, sep ∉ l) : splitOnChar sep (joinChar sep ls) = ls := by
  induction ls with
  | nil => exact absurd rfl hne
  | cons a rest ih =>
    cases rest with
    | nil => exact splitOnChar_of_not_mem (h a (List.mem_cons_self _ _))
    | cons b rest₂ =>
      have hih := ih (fun hx => List.noConfusion hx)
        (fun l hl => h l (List.mem_cons_of_mem _ hl))
      rw [joinChar, splitOnChar_append (h a (List.mem_cons_self _ _)), hih]
      exact fun hx => List.noConfusion hx

theorem mem_of_mem_splitOnChar {sep : Char} {s l : PyStr} {c : Char}
    (hl : l ∈ splitOnChar sep s) (hc : c ∈ l) : c ∈ s := by
  induction s generalizing l with
  | nil =>
    simp [splitOnChar] at hl
    rw [hl] at hc
    cases hc
  | cons a rest ih =>
    rw [splitOnChar] at hl
    by_cases ha : a = sep
    · rw [if_pos ha] at hl
      rcases List.mem_cons.mp hl with hl | hl
      · rw [hl] at hc; cases hc
      · exact List.mem_cons_of_mem _ (ih hl hc)
    · rw [if_neg ha] at hl
      cases hsp : splitOnChar sep rest with
      | nil => exact absurd hsp (splitOnChar_ne_nil sep rest)
      | cons p ps =>
        rw [hsp] at hl
        rcases List.mem_cons.mp hl with hl | hl
        · rw [hl] at hc
          rcases List.mem_cons.mp hc with hc | hc
          · simp [hc]
          · exact List.mem_cons_of_mem _ (ih (by rw [hsp]; exact List.mem_cons_self _ _) hc)
        · exact List.mem_cons_of_mem _ (ih (by rw [hsp]; exact List.mem_cons_of_mem _ hl) hc)

theorem not_mem_of_mem_splitOnChar {sep : Char} {s l : PyStr}
    (hl : l ∈ splitOnChar sep s) : sep ∉ l := by
  induction s generalizing l with
  | nil =>
    simp [splitOnChar] at hl
    simp [hl]
  | cons a rest ih =>
    rw [splitOnChar] at hl
    by_cases ha : a = sep
    · rw [if_pos ha] at hl
      rcases List.mem_cons.mp hl with hl | hl
      · simp [hl]
      · exact ih hl
    · rw [if_neg ha] at hl
      cases hsp : splitOnChar sep rest with
      | nil => exact absurd hsp (splitOnChar_ne_nil sep rest)
      | cons p ps =>
        rw [hsp] at hl
        rcases List.mem_cons.mp hl with hl | hl
        · rw [hl]
          intro hmem
          rcases List.mem_cons.mp hmem with hx | hx
          · exact ha hx.symm
          · exact ih (by rw [hsp]; exact List.mem_cons_self _ _) hx
        · exact ih (by rw [hsp]; exact List.mem_cons_of_mem _ hl)

theorem splitFirst_append {sep : Char} {k v : PyStr} (h : sep ∉ k) :
    splitFirst sep (k ++ sep :: v) = (k, v) := by
  induction k with
  | nil => simp [splitFirst]
  | cons c rest ih =>
    simp only [List.mem_cons, not_or] at h
    rw [List.cons_append, splitFirst]
    rw [if_neg (fun he => h.1 he.symm)]
    simp [ih h.2]

theorem mem_of_mem_splitFirst₁ {sep c : Char} {s : PyStr}
    (h : c ∈ (splitFirst sep s).1) : c ∈ s := by
  induction s with
  | nil => simp [splitFirst] at h
  | cons a rest ih =>
    rw [splitFirst] at h
    by_cases ha : a = sep
    · rw [if_pos ha] at h; cases h
    · rw [if_neg ha] at h
      simp only [List.mem_cons] at h ⊢
      rcases h with h | h
      · exact Or.inl h
      · exact Or.inr (ih h)

theorem mem_of_mem_splitFirst₂ {sep c : Char} {s : PyStr}
    (h : c ∈ (splitFirst sep s).2) : c ∈ s := by
  induction s with
  | nil => simp [splitFirst] at h
  | cons a rest ih =>
    rw [splitFirst] at h
    by_cases ha : a = sep
    · rw [if_pos ha] at h
      exact List.mem_cons_of_mem _ h
    · rw [if_neg ha] at h
      exact List.mem_cons_of_mem _ (ih h)

/-! ## Character facts and clean lines (for C1) -/

theorem isDigit_ne {c d : Char} (h : c.isDigit = true) (hd : d.isDigit = false) :
    c ≠ d := by
  intro he
  rw [he, hd] at h
  cases h

theorem head?_not_ws_of_strip_fix {v : PyStr} {c : Char} (hfix : strip v = v)
    (h : v.head? = some c) : isWs c = false := by
  have hvne : v ≠ [] := by
    intro he
    rw [he] at h
    cases h
  obtain ⟨r, hr⟩ := exists_append_stripRight (v.dropWhile isWs)
  have hv : stripRight (v.dropWhile isWs) = v := hfix
  rw [hv] at hr
  have hh : (v.dropWhile isWs).head? = some c := by
    rw [← hr]
    cases v with
    | nil => exact absurd rfl hvne
    | cons x xs =>
      simp only [List.head?_cons, Option.some.injEq] at h
      simp [h]
  exact head?_dropWhile hh

theorem getLast?_not_ws_of_strip_fix {v : PyStr} {c : Char} (hfix : strip v = v)
    (h : v.getLast? = some c) : isWs c = false := by
  have hrev : v.reverse.head? = some c := by rwa [List.head?_reverse]
  have hfix₂ : v.reverse = (v.dropWhile isWs).reverse.dropWhile isWs := by
    conv =>
      lhs
      rw [← hfix]
    unfold strip stripRight
    rw [List.reverse_reverse]
  rw [hfix₂] at hrev
  exact head?_dropWhile hrev

/-! ## Key-uniqueness bookkeeping (for C1) -/

theorem not_mem_keys_of_lookup_none {β : Type} {k : PyStr} {d : List (PyStr × β)}
    (h : lookupKey k d = none) : k ∉ d.map Prod.fst := by
  induction d with
  | nil => simp
  | cons q rest ih =>
    rw [lookupKey] at h
    by_cases hq : q.1 = k
    · rw [if_pos hq] at h; cases h
    · rw [if_neg hq] at h
      simp only [List.map_cons, List.mem_cons, not_or]
      exact ⟨fun he => hq he.symm, ih h⟩

theorem keys_setKey {β : Type} (k : PyStr) (v : β) (d : List (PyStr × β)) :
    (setKey k v d).map Prod.fst =
      if (lookupKey k d).isSome then d.map Prod.fst else d.map Prod.fst ++ [k] := by
  induction d with
  | nil => simp [setKey, lookupKey]
  | cons q rest ih =>
    by_cases hq : q.1 = k
    · simp [setKey, lookupKey, hq]
    · simp only [setKey, if_neg hq, lookupKey, List.map_cons, ih]
      by_cases hs : (lookupKey k rest).isSome <;> simp [hq, hs]

theorem nodup_keys_setKey {β : Type} {k : PyStr} {v : β} {d : List (PyStr × β)}
    (h : (d.map Prod.fst).Nodup) : ((setKey k v d).map Prod.fst).Nodup := by
  rw [keys_setKey]
  cases hs : lookupKey k d with
  | some w => simpa using h
  | none =>
    simp only [Option.isSome_none, Bool.false_eq_true, if_false]
    rw [List.nodup_append]
    exact ⟨h, List.nodup_singleton _,
      fun a ha hb => by
        rw [List.mem_singleton] at hb
        rw [hb] at ha
        exact not_mem_keys_of_lookup_none hs ha⟩

theorem keys_modifyKey {β : Type} (k : PyStr) (f : β → β) (d : List (PyStr × β)) :
    (modifyKey k f d).map Prod.fst = d.map Prod.fst := by
  induction d with
  | nil => rfl
  | cons q rest ih =>
    by_cases hq : q.1 = k <;> simp [modifyKey, hq, ih]

/-! ## The parse invariant (for C1) -/

theorem wfMap_nil : WfMap [] :=
  ⟨List.nodup_nil, fun q hq => absurd hq (List.not_mem_nil q)⟩

theorem wfMap_setKey_section {m : SectionMap} {name : PyStr} (h : WfMap m)
    (hsup : name ∈ SUPPORTED_SECTIONS) : WfMap (setKey name [] m) := by
  refine ⟨nodup_keys_setKey h.1, fun q hq => ?_⟩
  rcases mem_setKey hq with hq | hq
  · rw [hq]
    exact ⟨hsup, List.nodup_nil, fun p hp => absurd hp (List.not_mem_nil p)⟩
  · exact h.2 q hq

theorem wfMap_entry_insert {m : SectionMap} {sec k v : PyStr} (h : WfMap m)
    (hk : wf8 k = true) (hv : strip v = v) (hnl : '\n' ∉ v) :
    WfMap (modifyKey sec (setKey k v) m) := by
  refine ⟨by rw [keys_modifyKey]; exact h.1, fun q hq => ?_⟩
  rcases mem_modifyKey hq with hq | ⟨es, hes, hq2⟩
  · exact h.2 q hq
  · obtain ⟨hsup, hnd, hent⟩ := h.2 (q.1, es) hes
    refine ⟨hsup, ?_, ?_⟩
    · rw [hq2]
      exact nodup_keys_setKey hnd
    · intro p hp
      rw [hq2] at hp
      rcases mem_setKey hp with hp | hp
      · rw [hp]
        exact ⟨hk, hv, hnl⟩
      · exact hent p hp

theorem wfMap_parseStep {st : Option PyStr × SectionMap} {l : PyStr}
    (hl : '\n' ∉ l) (h : WfMap st.2) : WfMap (parseStep st l).2 := by
  unfold parseStep
  by_cases h0 : strip l = []
  · rwa [if_pos h0]
  · rw [if_neg h0]
    by_cases h1 : (strip l).head? = some '[' ∧ (strip l).getLast? = some ']'
    · rw [if_pos h1]
      by_cases h2 : ((strip l).drop 1).dropLast ∈ SUPPORTED_SECTIONS
      · rw [if_pos h2]
        exact wfMap_setKey_section h h2
      · rwa [if_neg h2]
    · rw [if_neg h1]
      by_cases h2 : '=' ∈ strip l
      · rw [if_pos h2]
        cases st.1 with
        | none => exact h
        | some sec =>
          show WfMap (if (strip (splitFirst '=' (strip l)).1).length = 8 ∧
              isDigits (strip (splitFirst '=' (strip l)).1) = true then
              (some sec, modifyKey sec (setKey (strip (splitFirst '=' (strip l)).1)
                (strip (splitFirst '=' (strip l)).2)) st.2)
            else st).2
          by_cases h3 : (strip (splitFirst '=' (strip l)).1).length = 8 ∧
              isDigits (strip (splitFirst '=' (strip l)).1) = true
          · rw [if_pos h3]
            refine wfMap_entry_insert h (wf8_iff.mpr h3) (strip_idem _) ?_
            intro hmem
            exact hl (mem_of_mem_strip
              (mem_of_mem_splitFirst₂ (mem_of_mem_strip hmem)))
          · rwa [if_neg h3]
      · rwa [if_neg h2]

theorem wfMap_parse_lines (ls : List PyStr) (hls : ∀ l ∈ ls, '\n' ∉ l) :
    WfMap (parse_lines ls) := by
  unfold parse_lines
  have hgen : ∀ (ls₂ : List PyStr), (∀ l ∈ ls₂, '\n' ∉ l) →
      ∀ (st : Option PyStr × SectionMap), WfMap st.2 →
      WfMap (ls₂.foldl parseStep st).2 := by
    intro ls₂
    induction ls₂ with
    | nil => exact fun _ st hd => hd
    | cons l rest ih =>
      intro hls₂ st hd
      rw [List.foldl_cons]
      exact ih (fun x hx => hls₂ x (List.mem_cons_of_mem _ hx)) _
        (wfMap_parseStep (hls₂ l (List.mem_cons_self _ _)) hd)
  exact hgen ls hls (none, []) wfMap_nil

theorem wfMap_parse_content (c : PyStr) : WfMap (parse_content c) :=
  wfMap_parse_lines _ (fun _ hl hmem => not_mem_of_mem_splitOnChar hl hmem)

/-! ## Re-parsing the serialized lines (for C1) -/

theorem parseStep_blank (st : Option PyStr × SectionMap) : parseStep st [] = st := rfl

theorem parseStep_header {s : PyStr} (hsup : s ∈ SUPPORTED_SECTIONS)
    (st : Option PyStr × SectionMap) :
    parseStep st (headerLine s) = (some s, setKey s [] st.2) := by
  have hconc : headerLine s = ('[' :: s) ++ [']'] := by
    unfold headerLine
    simp
  have hlast : (headerLine s).getLast? = some ']' := by
    rw [hconc]
    exact List.getLast?_concat _
  have hhead : (headerLine s).head? = some '[' := rfl
  have hstrip : strip (headerLine s) = headerLine s := by
    refine strip_eq_self (fun c hc => ?_) (fun c hc => ?_)
    · rw [hhead] at hc
      injection hc with hc
      rw [← hc]
      decide
    · rw [hlast] at hc
      injection hc with hc
      rw [← hc]
      decide
  have hname : ((headerLine s).drop 1).dropLast = s := by
    unfold headerLine
    simp only [List.drop_succ_cons, List.drop_zero]
    exact List.dropLast_concat
  unfold parseStep
  simp only [hstrip]
  rw [if_neg (by unfold headerLine; simp), if_pos ⟨hhead, hlast⟩, hname,
    if_pos hsup]

theorem parseStep_entry {sec : PyStr} (p : PyStr × PyStr) (d : SectionMap)
    (hk : wf8 p.1 = true) (hv : strip p.2 = p.2) (hvne : p.2 ≠ []) :
    parseStep (some sec, d) (entryLine p) =
      (some sec, modifyKey sec (setKey p.1 p.2) d) := by
  obtain ⟨hklen, hkdig⟩ := wf8_iff.mp hk
  have hkne : p.1 ≠ [] := by
    intro he
    rw [he] at hklen
    exact absurd hklen (by decide)
  have hkall : ∀ c ∈ p.1, c.isDigit = true := by
    have hx := hkdig
    rw [isDigits] at hx
    simp only [Bool.and_eq_true, List.all_eq_true] at hx
    exact hx.2
  have hhead : (entryLine p).head? = p.1.head? := by
    unfold entryLine
    exact List.head?_append_of_ne_nil _ hkne
  have hlast : (entryLine p).getLast? = p.2.getLast? := by
    unfold entryLine
    rw [List.getLast?_append_of_ne_nil _ (by simp)]
    rw [show ('=' :: p.2 : PyStr) = ['='] ++ p.2 from rfl]
    exact List.getLast?_append_of_ne_nil _ hvne
  have hstrip : strip (entryLine p) = entryLine p := by
    refine strip_eq_self (fun c hc => ?_) (fun c hc => ?_)
    · rw [hhead] at hc
      exact not_isWs_of_isDigit (hkall c (List.mem_of_mem_head? hc))
    · rw [hlast] at hc
      exact getLast?_not_ws_of_strip_fix hv hc
  have hne : entryLine p ≠ [] := by
    unfold entryLine
    cases p.1 <;> simp
  have hnothdr : ¬((entryLine p).head? = some '[' ∧
      (entryLine p).getLast? = some ']') := by
    rintro ⟨hx, _⟩
    rw [hhead] at hx
    have hdg := hkall '[' (List.mem_of_mem_head? hx)
    exact absurd hdg (by decide)
  have heq : '=' ∈ entryLine p := by
    unfold entryLine
    exact List.mem_append_right _ (List.mem_cons_self _ _)
  have hnk : '=' ∉ p.1 := by
    intro hmem
    exact absurd (hkall '=' hmem) (by decide)
  have hsplit : splitFirst '=' (entryLine p) = (p.1, p.2) := by
    unfold entryLine
    exact splitFirst_append hnk
  unfold parseStep
  simp only [hstrip]
  rw [if_neg hne, if_neg hnothdr, if_pos heq, hsplit]
  simp only
  rw [strip_of_digits hkdig, hv, if_pos ⟨hklen, hkdig⟩]

theorem lookupKey_append_none {β : Type} {k : PyStr} {a b : List (PyStr × β)}
    (ha : lookupKey k a = none) (hb : lookupKey k b = none) :
    lookupKey k (a ++ b) = none := by
  induction a with
  | nil => exact hb
  | cons q rest ih =>
    by_cases hq : q.1 = k
    · simp [lookupKey, hq] at ha
    · simp only [List.cons_append, lookupKey, if_neg hq] at ha ⊢
      exact ih ha

theorem parse_entryLines {sec : PyStr} (ps : AList) (d₀ : SectionMap) (acc : AList)
    (hps : ∀ p ∈ ps, wf8 p.1 = true ∧ strip p.2 = p.2 ∧ p.2 ≠ [])
    (hnd : (ps.map Prod.fst).Nodup)
    (hfresh : ∀ p ∈ ps, lookupKey p.1 acc = none) :
    (ps.map entryLine).foldl parseStep (some sec, setKey sec acc d₀) =
      (some sec, setKey sec (acc ++ ps) d₀) := by
  induction ps generalizing acc with
  | nil => simp
  | cons p rest ih =>
    rw [List.map_cons, List.foldl_cons]
    obtain ⟨hk, hv, hvne⟩ := hps p (List.mem_cons_self _ _)
    rw [parseStep_entry p (setKey sec acc d₀) hk hv hvne, modifyKey_setKey,
      setKey_of_lookup_none p.2 (hfresh p (List.mem_cons_self _ _))]
    simp only [List.map_cons, List.nodup_cons] at hnd
    have hstep := ih (acc ++ [(p.1, p.2)])
      (fun q hq => hps q (List.mem_cons_of_mem _ hq)) hnd.2
      (fun q hq => by
        refine lookupKey_append_none (hfresh q (List.mem_cons_of_mem _ hq)) ?_
        have hne : p.1 ≠ q.1 := fun he =>
          hnd.1 (by rw [he]; exact List.mem_map_of_mem _ hq)
        simp [lookupKey, hne])
    rw [hstep, List.append_assoc]
    rfl

theorem parse_sectionLines {s : PyStr} {es : AList} (hsup : s ∈ SUPPORTED_SECTIONS)
    (hes : ∀ p ∈ writtenEntries es, wf8 p.1 = true ∧ strip p.2 = p.2 ∧ p.2 ≠ [])
    (hnd : ((writtenEntries es).map Prod.fst).Nodup)
    (st : Option PyStr × SectionMap) :
    (sectionLines s es).foldl parseStep st =
      (some s, setKey s (writtenEntries es) st.2) := by
  unfold sectionLines
  simp only [List.foldl_cons, List.foldl_append]
  rw [parseStep_header hsup st]
  have hentry := @parse_entryLines s (writtenEntries es) st.2 [] hes hnd
    (fun p _ => rfl)
  rw [hentry]
  simp [parseStep_blank]

/-! ## The whole-file round trip (for C1) -/

theorem writtenEntries_cond {m : SectionMap} {s : PyStr} {es : AList} (hwf : WfMap m)
    (hlk : lookupKey s m = some es) :
    (∀ p ∈ writtenEntries es, wf8 p.1 = true ∧ strip p.2 = p.2 ∧ p.2 ≠ []) ∧
    ((writtenEntries es).map Prod.fst).Nodup := by
  obtain ⟨hsup, hnd, hent⟩ := hwf.2 (s, es) (mem_of_lookupKey hlk)
  constructor
  · intro p hp
    obtain ⟨hpes, hpne⟩ := mem_writtenEntries.mp hp
    obtain ⟨hw, hfix, _⟩ := hent p hpes
    refine ⟨hw, hfix, ?_⟩
    intro he
    rw [he] at hfix hpne
    exact hpne hfix
  · have hperm := List.perm_insertionSort
      (fun p q : PyStr × PyStr => pairLe p q = true) es
    have hnds : ((pySorted es).map Prod.fst).Nodup :=
      ((hperm.map Prod.fst).nodup_iff).mpr hnd
    exact ((List.filter_sublist _).map Prod.fst).nodup hnds

theorem lookupKey_none_of_not_supported {m : SectionMap} {s : PyStr} (hwf : WfMap m)
    (hs : s ∉ SUPPORTED_SECTIONS) : lookupKey s m = none := by
  cases h : lookupKey s m with
  | none => rfl
  | some es =>
    exact absurd (hwf.2 (s, es) (mem_of_lookupKey h)).1 hs

theorem no_newline_save_lines {m : SectionMap} (hwf : WfMap m) :
    ∀ l ∈ save_data_lines m, '\n' ∉ l := by
  intro l hl
  rw [save_data_lines_eq, List.mem_flatten] at hl
  obtain ⟨blk, hblk, hline⟩ := hl
  rw [List.mem_map] at hblk
  obtain ⟨s, hssup, rfl⟩ := hblk
  cases hlk : lookupKey s m with
  | none => simp [sectionBlock, hlk] at hline
  | some es =>
    simp only [sectionBlock, hlk] at hline
    by_cases he : es.isEmpty
    · rw [if_pos he] at hline
      exact absurd hline (List.not_mem_nil _)
    · rw [if_neg he] at hline
      unfold sectionLines at hline
      rcases List.mem_cons.mp hline with hline | hline
      · rw [hline]
        fin_cases hssup <;> decide
      · rcases List.mem_append.mp hline with hline | hline
        · rw [List.mem_map] at hline
          obtain ⟨p, hp, rfl⟩ := hline
          obtain ⟨hpes, _⟩ := mem_writtenEntries.mp hp
          obtain ⟨hw, _, hnl⟩ := (hwf.2 (s, es) (mem_of_lookupKey hlk)).2.2 p hpes
          unfold entryLine
          intro hmem
          rcases List.mem_append.mp hmem with hmem | hmem
          · have hall : ∀ c ∈ p.1, c.isDigit = true := by
              have hx := (wf8_iff.mp hw).2
              rw [isDigits] at hx
              simp only [Bool.and_eq_true, List.all_eq_true] at hx
              exact hx.2
            exact absurd (hall '\n' hmem) (by decide)
          · rcases List.mem_cons.mp hmem with hmem | hmem
            · exact absurd hmem (by decide)
            · exact hnl hmem
        · rw [List.mem_singleton] at hline
          rw [hline]
          exact List.not_mem_nil _

theorem parse_blocks_foldl (m : SectionMap) (hwf : WfMap m) :
    ∀ (ss : List PyStr) (st : Option PyStr × SectionMap), ss.Nodup →
      (∀ s ∈ ss, s ∈ SUPPORTED_SECTIONS) →
      (∀ s ∈ ss, lookupKey s st.2 = none) →
      ∃ cur, ((ss.map (sectionBlock m)).flatten).foldl parseStep st =
        (cur, st.2 ++ reparsedSections m ss) := by
  intro ss
  induction ss with
  | nil =>
    intro st _ _ _
    exact ⟨st.1, by simp [reparsedSections]⟩
  | cons s rest ih =>
    intro st hnd hsup hfresh
    rw [List.map_cons, List.flatten_cons, List.foldl_append]
    simp only [List.nodup_cons] at hnd
    cases hlk : lookupKey s m with
    | none =>
      have hblk : sectionBlock m s = [] := by simp [sectionBlock, hlk]
      rw [hblk]
      obtain ⟨cur, hres⟩ := ih st hnd.2
        (fun u hu => hsup u (List.mem_cons_of_mem _ hu))
        (fun u hu => hfresh u (List.mem_cons_of_mem _ hu))
      refine ⟨cur, ?_⟩
      rw [List.foldl_nil, hres]
      have hkept : keptEntries m s = none := by simp [keptEntries, hlk]
      simp [reparsedSections, hkept]
    | some es =>
      by_cases he : es.isEmpty
      · have hblk : sectionBlock m s = [] := by
          simp only [sectionBlock, hlk]
          rw [if_pos he]
        rw [hblk]
        obtain ⟨cur, hres⟩ := ih st hnd.2
          (fun u hu => hsup u (List.mem_cons_of_mem _ hu))
          (fun u hu => hfresh u (List.mem_cons_of_mem _ hu))
        refine ⟨cur, ?_⟩
        rw [List.foldl_nil, hres]
        have hkept : keptEntries m s = none := by
          simp only [keptEntries, hlk]
          rw [if_pos he]
        simp [reparsedSections, hkept]
      · have hblk : sectionBlock m s = sectionLines s es := by
          simp only [sectionBlock, hlk]
          rw [if_neg he]
        rw [hblk]
        obtain ⟨hcond, hndw⟩ := writtenEntries_cond hwf hlk
        rw [parse_sectionLines (hsup s (List.mem_cons_self _ _)) hcond hndw st]
        rw [setKey_of_lookup_none _ (hfresh s (List.mem_cons_self _ _))]
        obtain ⟨cur, hres⟩ := ih (some s, st.2 ++ [(s, writtenEntries es)]) hnd.2
          (fun u hu => hsup u (List.mem_cons_of_mem _ hu))
          (fun u hu => by
            refine lookupKey_append_none (hfresh u (List.mem_cons_of_mem _ hu)) ?_
            have hne : s ≠ u := fun he₂ => hnd.1 (he₂ ▸ hu)
            simp [lookupKey, hne])
        refine ⟨cur, ?_⟩
        rw [hres]
        have hkept : keptEntries m s = some (writtenEntries es) := by
          simp only [keptEntries, hlk]
          rw [if_neg he]
        have hrep : reparsedSections m (s :: rest) =
            (s, writtenEntries es) :: reparsedSections m rest := by
          simp [reparsedSections, List.filterMap_cons, hkept]
        rw [hrep, List.append_assoc]
        rfl

theorem parse_save_eq (m : SectionMap) (hwf : WfMap m) :
    parse_content (save_data_content m) = reparsedSections m SUPPORTED_SECTIONS := by
  unfold parse_content save_data_content
  by_cases hnil : save_data_lines m = []
  · rw [hnil]
    have hrep : reparsedSections m SUPPORTED_SECTIONS = [] := by
      have hall : ∀ s ∈ SUPPORTED_SECTIONS, sectionBlock m s = [] := by
        intro s hs
        have := save_data_lines_eq m
        rw [hnil] at this
        have hmem : sectionBlock m s ∈ SUPPORTED_SECTIONS.map (sectionBlock m) :=
          List.mem_map_of_mem _ hs
        have hflat := List.flatten_eq_nil_iff.mp this.symm
        exact hflat _ hmem
      have hkept : ∀ s ∈ SUPPORTED_SECTIONS, keptEntries m s = none := by
        intro s hs
        have hb := hall s hs
        cases hlk : lookupKey s m with
        | none => simp [keptEntries, hlk]
        | some es =>
          simp only [sectionBlock, hlk] at hb
          by_cases he : es.isEmpty
          · simp only [keptEntries, hlk]
            rw [if_pos he]
          · rw [if_neg he] at hb
            exact absurd hb (by unfold sectionLines; simp)
      unfold reparsedSections
      rw [List.filterMap_eq_nil_iff]
      intro s hs
      rw [hkept s hs]
      rfl
    rw [hrep]
    rfl
  · rw [splitOnChar_joinChar hnil (no_newline_save_lines hwf)]
    unfold parse_lines
    rw [save_data_lines_eq]
    obtain ⟨cur, hres⟩ := parse_blocks_foldl m hwf SUPPORTED_SECTIONS (none, [])
      (by decide) (fun s hs => hs) (fun s _ => rfl)
    rw [hres]
    rfl

theorem lookupKey_reparsedSections {m : SectionMap} {ss : List PyStr} (hnd : ss.Nodup)
    (t : PyStr) :
    lookupKey t (reparsedSections m ss) = if t ∈ ss then keptEntries m t else none := by
  induction ss with
  | nil => simp [reparsedSections, lookupKey]
  | cons s rest ih =>
    simp only [List.nodup_cons] at hnd
    unfold reparsedSections at ih ⊢
    rw [List.filterMap_cons]
    cases hk : keptEntries m s with
    | none =>
      simp only [Option.map_none']
      rw [ih hnd.2]
      by_cases ht : t = s
      · have htr : t ∉ rest := by rw [ht]; exact hnd.1
        rw [if_neg htr, if_pos (by rw [ht]; exact List.mem_cons_self _ _)]
        rw [ht, hk]
      · by_cases htr : t ∈ rest
        · rw [if_pos htr, if_pos (List.mem_cons_of_mem _ htr)]
        · rw [if_neg htr, if_neg (by simp [ht, htr])]
    | some w =>
      simp only [Option.map_some']
      by_cases ht : s = t
      · rw [lookupKey, if_pos ht, if_pos (by rw [← ht]; exact List.mem_cons_self _ _)]
        rw [← ht, hk]
      · rw [lookupKey, if_neg ht, ih hnd.2]
        by_cases htr : t ∈ rest
        · rw [if_pos htr, if_pos (List.mem_cons_of_mem _ htr)]
        · have hts : ¬ t = s := fun he₂ => ht he₂.symm
          rw [if_neg htr, if_neg (by simp [hts, htr])]

/-- C1 counterexample: the round-trip equality as claimed — same sections and
same per-section entry sets after removing empty-valued entries — fails at
the concrete content `"[MARK]"`: parsing yields the map `{MARK: {}}`, whose
serialization is empty, so re-parsing loses the `MARK` section entirely. -/
theorem parse_save_not_roundtrip :
    ¬ RoundTripEq (parse_content (save_data_content (parse_content (chars "[MARK]"))))
      (removeEmptyValues (parse_content (chars "[MARK]"))) := by
  intro h
  exact absurd (h.1 (chars "MARK")) (by decide)

/-- C1 (amended): for any map produced by `parse_content`, serializing with
`save_data`'s logic and re-parsing yields the same map modulo removal of
empty-valued entries, modulo key/value order (per-section entries compared as
sets), and modulo the presence of sections left with no written entries: a
section survives the round trip exactly when its entry dict was non-empty,
and the re-parsed entries of each section are exactly its non-blank-valued
entries. -/
theorem parse_save_roundtrip (c : PyStr) :
    (∀ (s : PyStr) (p : PyStr × PyStr),
      p ∈ (lookupKey s (parse_content (save_data_content (parse_content c)))).getD []
        ↔ p ∈ (lookupKey s (parse_content c)).getD [] ∧ strip p.2 ≠ []) ∧
    (∀ s : PyStr,
      (lookupKey s (parse_content (save_data_content (parse_content c)))).isSome
        ↔ ∃ es, lookupKey s (parse_content c) = some es ∧ es ≠ []) := by
  have hwf := wfMap_parse_content c
  rw [parse_save_eq _ hwf]
  constructor
  · intro s p
    rw [lookupKey_reparsedSections (by decide)]
    by_cases hs : s ∈ SUPPORTED_SECTIONS
    · rw [if_pos hs]
      cases hlk : lookupKey s (parse_content c) with
      | none => simp [keptEntries, hlk]
      | some es =>
        by_cases he : es.isEmpty
        · have hese : es = [] := by simpa using he
          simp [keptEntries, hlk, hese]
        · simp only [keptEntries, hlk, if_neg he, Option.getD_some]
          exact mem_writtenEntries
    · rw [if_neg hs, lookupKey_none_of_not_supported hwf hs]
      simp
  · intro s
    rw [lookupKey_reparsedSections (by decide)]
    by_cases hs : s ∈ SUPPORTED_SECTIONS
    · rw [if_pos hs]
      cases hlk : lookupKey s (parse_content c) with
      | none => simp [keptEntries, hlk]
      | some es =>
        by_cases he : es.isEmpty
        · have hese : es = [] := by simpa using he
          simp [keptEntries, hlk, hese]
        · simp only [keptEntries, hlk, if_neg he, Option.isSome_some, true_iff]
          refine ⟨es, rfl, ?_⟩
          intro hne
          exact he (by simp [hne])
    · rw [if_neg hs, lookupKey_none_of_not_supported hwf hs]
      simp

end TdxMark
